import Mathlib

/-!
# Verification of the exomem vault core

A shallow embedding, in Lean 4, of the core of the exomem content-addressed
encrypted block store (crates `vault`), together with proofs about it.

Machine integers (`u8`, `u16`, `u32`, `u64`, `usize`) are embedded as `Nat`
with explicit `% 2^w` at the places where the Rust source performs a
narrowing cast or wrapping arithmetic.  Fallible operations (Rust `panic!`,
`assert!`, `unwrap`, `todo!`, `unimplemented!`) are embedded as
`Option`-returning functions where `none` marks the panic.
-/

set_option maxRecDepth 8000

namespace Exomem

/-! ## Identifier and size value types (`vault/src/block.rs`) -/

/-- Embeds `MAX_SIZE_MARKER` from `block.rs`: the size marker is 4 bits. -/
def MAX_SIZE_MARKER : Nat := 15

/-- Embeds `MAX_BLOCK_SIZE` from `block.rs`: `2u32.pow(27)`, 128 MiB. -/
def MAX_BLOCK_SIZE : Nat := 2 ^ 27

/-- Embeds `MAX_FILE_SIZE` from `block.rs`: `2u64.pow(59) - 280 * 2u64.pow(27)`. -/
def MAX_FILE_SIZE : Nat := 2 ^ 59 - 280 * 2 ^ 27

/-- Embeds `u32::count_ones`, embedded as a recursion on the binary representation. -/
def countOnes (n : Nat) : Nat :=
  if n = 0 then 0 else n % 2 + countOnes (n / 2)
decreasing_by exact Nat.div_lt_self (Nat.pos_of_ne_zero (by assumption)) (by decide)

/-- Embeds `BlockSize::valid(size)` from `block.rs`:
`size.count_ones() == 1 && size << 4 > 0 && size >> 12 > 0`,
on a `u32` argument (shifts wrap modulo `2^32`). -/
def blockSizeValid (size : Nat) : Bool :=
  countOnes size == 1 && (size * 2 ^ 4) % 2 ^ 32 > 0 && size / 2 ^ 12 > 0

/-- Embeds `BlockSize::from_marker(size_marker)` from `block.rs`:
`2u32.pow(12 + size_marker)`.  The source asserts `size_marker <= 0x0F`;
every caller in the source complies, and the callers that do not are
modelled with their own explicit guards. -/
def blockSizeFromMarker (sizeMarker : Nat) : Nat := 2 ^ (12 + sizeMarker)

/-- Embeds `BlockSize::new(size)` from `block.rs`: `assert!(BlockSize::valid(size))`. -/
def blockSizeNew (size : Nat) : Option Nat :=
  if blockSizeValid size then some size else none

/-- Embeds `BlockOffset::new(value)` from `block.rs`: `assert!(value < MAX_BLOCK_SIZE)`. -/
def blockOffsetNew (value : Nat) : Option Nat :=
  if value < MAX_BLOCK_SIZE then some value else none

/-- Embeds `FileSize::new(value)` from `block.rs`: `assert!(value <= MAX_FILE_SIZE)`. -/
def fileSizeNew (value : Nat) : Option Nat :=
  if value ≤ MAX_FILE_SIZE then some value else none

/-- Embeds `FileOffset::new(value)` from `block.rs`: `assert!(value < MAX_FILE_SIZE)`. -/
def fileOffsetNew (value : Nat) : Option Nat :=
  if value < MAX_FILE_SIZE then some value else none

/-- Embeds `FileOffset::as_block_offset` from `block.rs`: `(self.0 as u32).into()`,
i.e. truncate the `u64` to its low 32 bits and feed it to `BlockOffset::new`. -/
def fileOffsetAsBlockOffset (value : Nat) : Option Nat :=
  blockOffsetNew (value % 2 ^ 32)

/-- Embeds `FileSize::as_block_offset` from `block.rs`: `(self.0 as u32).into()`,
i.e. truncate the `u64` to its low 32 bits and feed it to `BlockOffset::new`. -/
def fileSizeAsBlockOffset (value : Nat) : Option Nat :=
  blockOffsetNew (value % 2 ^ 32)

/-! ## The `BlockId` byte-level model (`vault/src/block.rs`)

A `BlockId` is 32 raw bytes; byte 0 is the header. -/

/-- A `BlockId`: the raw bytes, byte 0 being the header byte. -/
structure BlockId where
  data : List Nat
deriving DecidableEq, Repr

/-- The size-marker computation of `BlockId::set_header` from `block.rs`:
`let size_marker = 12 - size.ilog2() as u8;` followed by
`if size_marker > 15 { panic!("Unexpected size marker") }`.

`size` is a `usize`, so `size.ilog2()` panics when `size == 0` and otherwise
lies in `[0,63]`.  The subtraction `12u8 - ilog2` underflows whenever
`ilog2 > 12`: in a debug build the subtraction itself panics, and in a
release build it wraps modulo 256 to a value `> 15` which trips the explicit
panic.  Both behaviours are the same partial function, embedded here with
the release-build wrapping made explicit. -/
def setHeaderMarker (size : Nat) : Option Nat :=
  if size = 0 then none
  else
    let sizeMarker := (12 + 2 ^ 8 - Nat.log2 size) % 2 ^ 8
    if sizeMarker > 15 then none else some sizeMarker

/-- Embeds `BlockId::new(hash, size, has_header)` from `block.rs`: take the 32 hash
bytes and overwrite byte 0 with the header byte packed by `set_header`. -/
def BlockId.new (hash : List Nat) (size : Nat) (hasHeader : Bool) : Option BlockId :=
  (setHeaderMarker size).map fun sizeMarker =>
    ⟨((if hasHeader then 2 else 0) ||| (sizeMarker <<< 2)) :: hash.tail⟩

/-- Embeds `BlockId::header` from `block.rs`: the first raw byte. -/
def BlockId.header (b : BlockId) : Nat := b.data.headI

/-- Embeds `BlockId::supported_version` from `block.rs`: bit 0 of the header is zero. -/
def BlockId.supportedVersion (b : BlockId) : Bool := b.header &&& 1 == 0

/-- Embeds `BlockId::valid` from `block.rs`: supported version and bits 6–7 zero. -/
def BlockId.validId (b : BlockId) : Bool :=
  b.supportedVersion && b.header &&& 0xC0 == 0

/-- Embeds `BlockId::block_has_header` from `block.rs`: bit 1 of the header. -/
def BlockId.blockHasHeader (b : BlockId) : Bool := (b.header &&& 2) >>> 1 != 0

/-- Embeds `BlockId::block_size` from `block.rs`: bits 2–5 of the header are the
size marker, the size is `2^(12 + marker)`. -/
def BlockId.blockSize (b : BlockId) : Nat :=
  blockSizeFromMarker ((b.header &&& 0x3C) >>> 2)

/-! ## The file-offset translator (`InfoBlock::translate_file_offset`)

The source walks two nested loops (size marker `m` in `0..16`, repetition
`j` in `0..16`, with extra repetitions before the `j = 15` step when
`m > 3`), accumulating `block_start_offset` and early-returning the first
block whose end exceeds the requested offset.  The embedding flattens the
loops into the list of blocks they emit, in emission order, with each
block's index computed by the same formula the source uses, and searches
that list exactly as the loop does. -/

/-- Embeds `REPEATING_BLOCKS_START_OFFSET` from `block.rs`: 6.75 GiB. -/
def REPEATING_BLOCKS_START_OFFSET : Nat := 7247757312

/-- The index correction loop `for ii in 4..size_marker { block_index += ii - 3 }`
from `translate_file_offset`. -/
def extraCorrection (sizeMarker : Nat) : Nat :=
  (List.range' 4 (sizeMarker - 4)).foldl (fun acc ii => acc + (ii - 3)) 0

/-- The blocks emitted by loop iteration `(m, j)` of `translate_file_offset`,
in emission order, as `(block_index, block_size)` pairs: when `m > 3` and
`j = 15`, the `m - 3` extra repetitions come first, then the regular block. -/
def emittedAt (m j : Nat) : List (Nat × Nat) :=
  (if 3 < m ∧ j = 15 then
    (List.range (m - 3)).map fun n =>
      (m * 16 + j + extraCorrection m + n, blockSizeFromMarker m)
   else []) ++
  [(m * 16 + j + (if 3 < m then extraCorrection m + (if j = 15 then m - 3 else 0) else 0),
    blockSizeFromMarker m)]

/-- All blocks of the deterministic prefix in the order the loops of
`translate_file_offset` emit them. -/
def emittedBlocks : List (Nat × Nat) :=
  (List.range 16).flatMap fun m => (List.range 16).flatMap fun j => emittedAt m j

/-- The early-return search of `translate_file_offset`: walk the emitted
blocks accumulating the running start offset, and return the index and start
offset of the first block whose end exceeds `offset`. -/
def findBlockStart (offset : Nat) : List (Nat × Nat) → Nat → Option (Nat × Nat)
  | [], _ => none
  | (idx, sz) :: rest, start =>
    if offset < start + sz then some (idx, start)
    else findBlockStart offset rest (start + sz)

/-- Embeds `InfoBlock::translate_file_offset(offset)` from `block.rs`, composed with
the `FileOffset::new` assertion `offset < MAX_FILE_SIZE` that guards every
`FileOffset` the function can receive.  The `u32` casts of the source
(`remaining_blocks as u32`, `as_block_offset`) are embedded as `% 2^32`, the
`u32` addition `334 + …` as a wrapping addition, and the
`FileSize`/`FileOffset` range assertions on the repeating-tail arithmetic as
an explicit guard. -/
def translate_file_offset (offset : Nat) : Option (Nat × Nat) :=
  if offset < MAX_FILE_SIZE then
    if offset < REPEATING_BLOCKS_START_OFFSET then
      match findBlockStart offset emittedBlocks 0 with
      | some (idx, start) => (fileOffsetAsBlockOffset (offset - start)).map fun p => (idx, p)
      | none => none
    else
      -- `remaining_blocks = (offset - REPEATING_BLOCKS_START_OFFSET) / repeating_block_size`,
      -- with the source's intermediate `let`s inlined
      if (offset - REPEATING_BLOCKS_START_OFFSET) / blockSizeFromMarker 15 *
          blockSizeFromMarker 15 < MAX_FILE_SIZE then
        (fileOffsetAsBlockOffset (offset -
            (REPEATING_BLOCKS_START_OFFSET +
              (offset - REPEATING_BLOCKS_START_OFFSET) / blockSizeFromMarker 15 *
                blockSizeFromMarker 15))).map
          fun p =>
            ((334 + (offset - REPEATING_BLOCKS_START_OFFSET) / blockSizeFromMarker 15 % 2 ^ 32) %
                2 ^ 32,
              p)
      else none
  else none

/-! ## The reference schedule (spec §4.5)

Stated independently of the translator: for each size marker `m ∈ [0,15]`
the file contains `16` blocks of size `2^(12+m)` plus, for `m > 3`, a run of
`m − 3` extra blocks of the same size; from block index 334 onward every
block is 128 MiB. -/

/-- Number of blocks in the reference stripe of size marker `m`. -/
def refStripeCount (m : Nat) : Nat := 16 + (if 3 < m then m - 3 else 0)

/-- The sizes of the blocks of the deterministic prefix, per the reference
schedule. -/
def refSizes : List Nat :=
  (List.range 16).flatMap fun m => List.replicate (refStripeCount m) (2 ^ (12 + m))

/-- The size of the `i`-th block of the reference schedule: the `i`-th prefix
block, or 128 MiB from index 334 onward. -/
def refBlockSize (i : Nat) : Nat := refSizes[i]?.getD (2 ^ 27)

/-- The start offset `s_i` of the `i`-th block of the reference schedule. -/
def refStart : Nat → Nat
  | 0 => 0
  | i + 1 => refStart i + refBlockSize i

/-! ## The structured vault model (`vault/src/block.rs`, `provider.rs`, `vault.rs`)

The info-block operations of `block.rs` read and write structured values
through the capnp codec generated from the wire schema (`vault_capnp`, not
part of `src/`; its shape is fixed by spec §3/§6:
`Node {Directory|File|Vault}`, `Entry {name, id}`,
`Id {LocalId(u16)|BlockId|ShardId}`).  The model works on those structured
values directly, treating the codec as the identity, and abstracts a 256-bit
`BlockId` to a `Nat` produced by an injective-by-construction encoding that
stands in for the BLAKE3 content hash.  Encryption is the identity, exactly
as in the source. -/

namespace VM

/-- The `NodeKind` enumeration of the wire schema. -/
inductive NodeKind where
  | directory
  | file
  | vault
deriving DecidableEq, Repr

/-- The three-way id union `Id { LocalId(u16) | BlockId | ShardId }`, with
the 256-bit block id abstracted to `Nat`. -/
inductive UnionId where
  | localId (v : Nat)
  | blockId (b : Nat)
  | shardId (v : Nat)
deriving DecidableEq, Repr

/-- A directory entry: a name and an id. -/
structure Entry where
  name : String
  id : UnionId
deriving DecidableEq, Repr

/-- A node of an info block. -/
inductive Node where
  | directory (entries : List Entry)
  | file (size : Nat) (id : UnionId)
  | vault (root : UnionId) (index : UnionId)
deriving DecidableEq, Repr

/-- The decoded content of an info block: the root record's `nodes` list. -/
structure BlockVal where
  nodes : List Node
deriving DecidableEq, Repr

/-- Word-stream serialisation of an id, used by the stand-in content hash. -/
def serializeId : UnionId → List Nat
  | .localId v => [0, v % 2 ^ 32]
  | .blockId b => [1, b % 2 ^ 32, b / 2 ^ 32 % 2 ^ 32]
  | .shardId v => [2, v % 2 ^ 32]

/-- Word-stream serialisation of an entry. -/
def serializeEntry (e : Entry) : List Nat :=
  3 :: e.name.data.map Char.toNat ++ serializeId e.id

/-- Word-stream serialisation of a node. -/
def serializeNode : Node → List Nat
  | .directory es => 4 :: es.flatMap serializeEntry
  | .file sz i => 5 :: sz % 2 ^ 32 :: serializeId i
  | .vault r ix => 6 :: (serializeId r ++ serializeId ix)

/-- Stand-in for `blake3::hash` over a block's bytes: a fixed-width
deterministic digest of the serialised content.  As with the real hash,
collision resistance is an extrinsic assumption; none of the theorems below
relies on injectivity. -/
def blockHash (b : BlockVal) : Nat :=
  (b.nodes.flatMap serializeNode).foldl (fun acc t => (acc * 4294967291 + t) % 2 ^ 64) 5381

/-- Embeds `EncryptedBlock::encrypt` from `block.rs`: the identity in this version. -/
def encrypt (b : BlockVal) : BlockVal := b

/-- Embeds `EncryptedBlock::decrypt` from `block.rs`: the identity in this version. -/
def decrypt (b : BlockVal) : BlockVal := b

/-- Embeds `EncryptedBlock::id` from `block.rs`: the content hash of the encrypted
bytes (the header bits carried alongside are not part of this abstraction). -/
def encryptedBlockId (e : BlockVal) : Nat := blockHash e

/-! ### The `Provider` (`vault/src/provider.rs`)

State: the in-memory map `blocks` and the on-disk directory `temp/` holding
one encrypted block file per id, both as association lists keyed by id. -/

/-- The `Provider`'s mutable state: the in-memory block map and the on-disk
block files. -/
structure Provider where
  blocks : List (Nat × BlockVal)
  disk : List (Nat × BlockVal)
deriving DecidableEq, Repr

/-- Embeds `Provider::get_block(id)` from `provider.rs`: *only* the in-memory map is
consulted (`self.blocks.borrow().get(&id).unwrap()`); the disk, LAN and
service lookups are `TODO` comments in the source.  A map miss panics. -/
def Provider.get_block (p : Provider) (id : Nat) : Option BlockVal :=
  p.blocks.lookup id

/-- Embeds `Provider::load_block_from_file(id, key)` from `provider.rs`: read the
on-disk file, decrypt it, insert it into the map, and return the inserted
block; a read failure panics. -/
def Provider.load_block_from_file (p : Provider) (id : Nat) : Option (BlockVal × Provider) :=
  match p.disk.lookup id with
  | some data =>
    let block := decrypt data
    some (block, { p with blocks := (id, block) :: p.blocks })
  | none => none

/-- Embeds `Provider::add_block(id, encrypted_block, block)` from `provider.rs`: if
the map already contains `id`, return the *argument* `block` unchanged;
otherwise insert `block` into the map, write `encrypted_block` to disk, and
return `block`. -/
def Provider.add_block (p : Provider) (id : Nat) (encryptedBlock block : BlockVal) :
    BlockVal × Provider :=
  if (p.blocks.lookup id).isSome then (block, p)
  else (block, ⟨(id, block) :: p.blocks, (id, encryptedBlock) :: p.disk⟩)

/-! ### Info-block factories and operations (`vault/src/block.rs`) -/

/-- Embeds `InfoBlock::new_vault(root_id, index_id)`: one `Vault` node with both ids
as `BlockId` variants. -/
def new_vault (rootId indexId : Nat) : BlockVal :=
  ⟨[Node.vault (UnionId.blockId rootId) (UnionId.blockId indexId)]⟩

/-- Embeds `InfoBlock::new_index()`: the empty index envelope. -/
def new_index : BlockVal := ⟨[]⟩

/-- Embeds `InfoBlock::new_directory()`: one `Directory` node with no entries. -/
def new_directory : BlockVal := ⟨[Node.directory []]⟩

/-- Read an id that the source insists is a `BlockId` variant (`todo!()`
for `LocalId` and `ShardId`). -/
def readIdAsBlockId : UnionId → Option Nat
  | .blockId b => some b
  | _ => none

/-- Embeds `InfoBlock::get_root_id_and_index_id` from `block.rs`.  Faithful to the
source, which obtains **both** components from `vault_r.get_root()` — the
`index` field is never read. -/
def get_root_id_and_index_id (b : BlockVal) : Option (Nat × Nat) :=
  match b.nodes[0]? with
  | some (Node.vault root _index) =>
    match readIdAsBlockId root, readIdAsBlockId root with
    | some rootId, some indexId => some (rootId, indexId)
    | _, _ => none
  | _ => none

/-- Embeds `InfoBlock::update_root_id(block_id)` from `block.rs`: copy the block,
requiring node 0 to be a `Vault`, and replace its `root` field with the
given block id. -/
def update_root_id (b : BlockVal) (blockId : Nat) : Option BlockVal :=
  match b.nodes[0]? with
  | some (Node.vault _root index) =>
    some ⟨b.nodes.set 0 (Node.vault (UnionId.blockId blockId) index)⟩
  | _ => none

/-- The entries of node `idx`, which must be a `Directory` (else the source
panics). -/
def getDirEntries (b : BlockVal) (idx : Nat) : Option (List Entry) :=
  match b.nodes[idx]? with
  | some (Node.directory es) => some es
  | _ => none

/-- Embeds `InfoBlock::directory_create_local_node(directory_node_idx, name, kind)`
from `block.rs`: append to `nodes` a new inline node initialised per `kind`
(placeholder size 1234 and default id for a file; the `Vault` arm is a
`TODO` that leaves the node default-initialised, i.e. an empty directory
under the schema's first union variant), append to the directory's entries a
new entry named `name` whose id is `LocalId(old_nodes_len as u16)`, and
return the new block together with the (untruncated) new node index. -/
def directory_create_local_node (b : BlockVal) (directoryNodeIdx : Nat) (name : String)
    (kind : NodeKind) : Option (BlockVal × Nat) :=
  match b.nodes[directoryNodeIdx]? with
  | some (Node.directory entries) =>
    let oldNodesLen := b.nodes.length
    let newEntry : Entry := ⟨name, UnionId.localId (oldNodesLen % 2 ^ 16)⟩
    let newNode : Node :=
      match kind with
      | NodeKind.directory => Node.directory []
      | NodeKind.file => Node.file 1234 (UnionId.localId 0)
      | NodeKind.vault => Node.directory []
    some (⟨(b.nodes.set directoryNodeIdx (Node.directory (entries ++ [newEntry]))) ++ [newNode]⟩,
      oldNodesLen)
  | _ => none

/-- The entry scan of `directory_get_entry_block_id_and_node_index`: the
first entry with a matching name decides the result (`ShardId` is
`unimplemented!()`, outer `none`); no match is the inner `none`. -/
def findEntry (entryName : String) : List Entry → Option (Option (Option Nat × Nat))
  | [] => some none
  | e :: rest =>
    if e.name = entryName then
      match e.id with
      | UnionId.localId l => some (some (none, l))
      | UnionId.blockId b => some (some (some b, 0))
      | UnionId.shardId _ => none
    else findEntry entryName rest

/-- Embeds `InfoBlock::directory_get_entry_block_id_and_node_index` from
`block.rs`. -/
def directory_get_entry_block_id_and_node_index (b : BlockVal) (directoryNodeIdx : Nat)
    (entryName : String) : Option (Option (Option Nat × Nat)) :=
  (getDirEntries b directoryNodeIdx).bind (findEntry entryName)

/-- The `id_matches` test of `directory_set_entry_block_id_and_node_index`:
both local with equal node index, or both block with equal ids; `ShardId`
is `unimplemented!()`. -/
def entryIdMatches (id : UnionId) (blockId : Option Nat) (nodeIndex : Nat) : Option Bool :=
  match id with
  | UnionId.localId l => some (blockId.isNone && l == nodeIndex)
  | UnionId.blockId cb => some (blockId == some cb)
  | UnionId.shardId _ => none

/-- The id the caller requested an entry to carry. -/
def requestedId (blockId : Option Nat) (nodeIndex : Nat) : UnionId :=
  match blockId with
  | some b => UnionId.blockId b
  | none => UnionId.localId nodeIndex

/-- The entry scan of `directory_set_entry_block_id_and_node_index`: rewrite
the first entry whose name matches and whose id does *not* already match;
entries whose id already matches are skipped (the loop continues), and
falling off the end yields the inner `none`. -/
def setEntryScan (entryName : String) (blockId : Option Nat) (nodeIndex : Nat) :
    List Entry → Option (Option (List Entry))
  | [] => some none
  | e :: rest =>
    if e.name = entryName then
      match entryIdMatches e.id blockId nodeIndex with
      | none => none
      | some true =>
        (setEntryScan entryName blockId nodeIndex rest).map (Option.map (e :: ·))
      | some false => some (some (⟨e.name, requestedId blockId nodeIndex⟩ :: rest))
    else (setEntryScan entryName blockId nodeIndex rest).map (Option.map (e :: ·))

/-- Embeds `InfoBlock::directory_set_entry_block_id_and_node_index` from
`block.rs`. -/
def directory_set_entry_block_id_and_node_index (b : BlockVal) (directoryNodeIdx : Nat)
    (entryName : String) (blockId : Option Nat) (nodeIndex : Nat) : Option (Option BlockVal) :=
  match b.nodes[directoryNodeIdx]? with
  | some (Node.directory entries) =>
    (setEntryScan entryName blockId nodeIndex entries).map
      (Option.map fun es => ⟨b.nodes.set directoryNodeIdx (Node.directory es)⟩)
  | _ => none

/-! ### The vault engine (`vault/src/vault.rs`)

`create_directory` in two passes: a forward walk over the path components
maintaining three parallel stacks (modelled as one stack of `Frame`s, top at
the head), and a backtracking walk that re-encrypts and re-inserts every
real block and finally rewrites the vault block and the vault-id pointer
file.  Disk-visible operations are recorded as an `Event` trace. -/

/-- A component of a `VaultPath`, as produced by `std::path::Components`. -/
inductive PathComp where
  | prefixComp
  | rootDir
  | curDir
  | parentDir
  | normal (name : String)
deriving DecidableEq, Repr

/-- One frame of the three parallel stacks of `create_directory`
(`blocks[i]`, `node_indexes[i]`, `entry_names[i]`); `block? = none` means
"inlined inside the nearest ancestor block". -/
structure Frame where
  block? : Option BlockVal
  nodeIndex : Nat
  name : String
deriving DecidableEq, Repr

/-- Embeds `blocks.iter().rev().find(|block| block.is_some())`: the nearest real
block, searching from the top of the stack. -/
def findNearestBlock : List Frame → Option BlockVal
  | [] => none
  | f :: rest =>
    match f.block? with
    | some b => some b
    | none => findNearestBlock rest

/-- Embeds `*blocks.iter_mut().rev().find(|block| block.is_some()).unwrap() = Some(new_block)`:
replace the nearest real block, searching from the top of the stack. -/
def replaceNearestBlock (newBlock : BlockVal) : List Frame → List Frame
  | [] => []
  | f :: rest =>
    match f.block? with
    | some _ => { f with block? := some newBlock } :: rest
    | none => f :: replaceNearestBlock newBlock rest

/-- The externally visible disk operations of a mutation, in program order:
a `Provider::add_block` call (which writes the block file when the id is
new) and the `Provider::save_block_id_to_file` rewrite of the vault-id
pointer file. -/
inductive Event where
  | addBlock (id : Nat)
  | savePointer (id : Nat)
deriving DecidableEq, Repr

/-- One path component of the forward pass of `create_directory`:
prefix/root/current components are ignored, parent components are
`unimplemented!()`, and a normal `name` is resolved in the nearest real
block at the top frame's node index — descending into the found block or
inline node, or creating a missing directory as a new inline node of the
nearest real block (functional update) and setting the `created` flag. -/
def forwardStep (p : Provider) (st : List Frame) (created : Bool) (c : PathComp) :
    Option (List Frame × Bool) :=
  match c with
  | .prefixComp => some (st, created)
  | .rootDir => some (st, created)
  | .curDir => some (st, created)
  | .parentDir => none
  | .normal name =>
    match st with
    | [] => none
    | top :: _ =>
      match findNearestBlock st with
      | none => none
      | some blk =>
        match directory_get_entry_block_id_and_node_index blk top.nodeIndex name with
        | none => none
        | some (some (some bid, nIdx)) =>
          match p.get_block bid with
          | none => none
          | some b => some (⟨some b, nIdx, name⟩ :: st, created)
        | some (some (none, nIdx)) => some (⟨none, nIdx, name⟩ :: st, created)
        | some none =>
          match directory_create_local_node blk top.nodeIndex name NodeKind.directory with
          | none => none
          | some (newBlock, entryNodeIndex) =>
            some (⟨none, entryNodeIndex, name⟩ :: replaceNearestBlock newBlock st, true)

/-- The forward pass of `create_directory` over all path components. -/
def forwardPass (p : Provider) : List PathComp → List Frame → Bool → Option (List Frame × Bool)
  | [], st, created => some (st, created)
  | c :: cs, st, created =>
    match forwardStep p st created c with
    | none => none
    | some (st', created') => forwardPass p cs st' created'

/-- The four `entry_*` mutables threaded through the backtracking loop. -/
structure Pending where
  entryBlock : Option BlockVal
  entryBlockId : Option Nat
  entryNodeIndex : Option Nat
  entryName : Option String
deriving DecidableEq, Repr

/-- One iteration of the backtracking loop of `create_directory`: for a
frame with a real block, rewrite the pending child entry (when there is
one), then encrypt the block, compute its id, `add_block` it, and make it
the pending child; for an inline frame, clear the pending block and id.
Either way the frame's node index (cast to `u16`) and entry name become the
pending entry data. -/
def backStep (p : Provider) (pend : Pending) (f : Frame) :
    Option (Provider × Pending × List Event) :=
  match f.block? with
  | none => some (p, ⟨none, none, some (f.nodeIndex % 2 ^ 16), some f.name⟩, [])
  | some blk =>
    let insert : BlockVal → Option (Provider × Pending × List Event) := fun b =>
      let enc := encrypt b
      let bid := encryptedBlockId enc
      let pr := p.add_block bid enc b
      some (pr.2, ⟨some pr.1, some bid, some (f.nodeIndex % 2 ^ 16), some f.name⟩,
        [Event.addBlock bid])
    match pend.entryNodeIndex, pend.entryName with
    | some ni, some nm =>
      match directory_set_entry_block_id_and_node_index blk f.nodeIndex nm
          pend.entryBlockId ni with
      | none => none
      | some (some newBlock) => insert newBlock
      | some none => insert blk
    | _, _ => insert blk

/-- The backtracking loop of `create_directory`, from the deepest frame
(stack top) down to the root frame, concatenating the event traces. -/
def backtrack (p : Provider) (pend : Pending) :
    List Frame → Option (Provider × Pending × List Event)
  | [] => some (p, pend, [])
  | f :: rest =>
    match backStep p pend f with
    | none => none
    | some (p', pend', evs) =>
      match backtrack p' pend' rest with
      | none => none
      | some (p'', pend'', evs') => some (p'', pend'', evs ++ evs')

/-- The state of an open vault (`Vault` from `vault.rs`): the three cached
info blocks and the cached current root id.  The backing pointer-file path
is kept implicit. -/
structure VaultState where
  vault : BlockVal
  root : BlockVal
  rootId : Nat
  index : BlockVal
deriving DecidableEq, Repr

/-- Embeds `Vault::create_directory(path)` from `vault.rs`.  The forward pass runs
over the components from the base frame `(Some(root), 0, "")`; when nothing
was created the function returns with no disk activity.  Otherwise the
backtracking loop runs, the vault block is rewritten via `update_root_id`
around the new root id and inserted, and the vault-id pointer file is
overwritten last.  The cached `root` and `vault` blocks are replaced; the
cached `root_id` is *not* updated (faithful to the source).  The source
unwraps `entry_block` only after the pointer write; both unwraps can only
fail together (the bottom frame always holds the root block), and either
failure is modelled as overall failure. -/
def create_directory (p : Provider) (vs : VaultState) (path : List PathComp) :
    Option (Provider × VaultState × List Event) :=
  match forwardPass p path [⟨some vs.root, 0, ""⟩] false with
  | none => none
  | some (st, created) =>
    if created then
      match backtrack p ⟨none, none, none, none⟩ st with
      | none => none
      | some (p1, pend, evs) =>
        match pend.entryBlockId, pend.entryBlock with
        | some newRootId, some newRoot =>
          match update_root_id vs.vault newRootId with
          | none => none
          | some vaultBlock =>
            let enc := encrypt vaultBlock
            let vid := encryptedBlockId enc
            let pr := p1.add_block vid enc vaultBlock
            some (pr.2, { vs with root := newRoot, vault := pr.1 },
              evs ++ [Event.addBlock vid, Event.savePointer vid])
        | _, _ => none
    else some (p, vs, [])

/-- The hypothesis of C8, stated independently of `create_directory`: every
normal component of the path resolves to an existing entry of the directory
it is looked up in (and the blocks it descends through are fetchable). -/
def resolvesFrom (p : Provider) : List PathComp → List Frame → Bool
  | [], _ => true
  | c :: cs, st =>
    match c with
    | .prefixComp => resolvesFrom p cs st
    | .rootDir => resolvesFrom p cs st
    | .curDir => resolvesFrom p cs st
    | .parentDir => false
    | .normal name =>
      match st with
      | [] => false
      | top :: _ =>
        match findNearestBlock st with
        | none => false
        | some blk =>
          match directory_get_entry_block_id_and_node_index blk top.nodeIndex name with
          | some (some (some bid, nIdx)) =>
            match p.get_block bid with
            | some b => resolvesFrom p cs (⟨some b, nIdx, name⟩ :: st)
            | none => false
          | some (some (none, nIdx)) => resolvesFrom p cs (⟨none, nIdx, name⟩ :: st)
          | some none => false
          | none => false

/-! ### Block references, disk closure and reachability (for the
crash-consistency contract, spec §5/§7) -/

/-- The block ids referenced by an id union (local and shard ids reference
no other block). -/
def idRefs : UnionId → List Nat
  | .localId _ => []
  | .blockId b => [b]
  | .shardId _ => []

/-- The block ids referenced by a node. -/
def nodeRefs : Node → List Nat
  | .directory es => es.flatMap fun e => idRefs e.id
  | .file _ i => idRefs i
  | .vault r ix => idRefs r ++ idRefs ix

/-- The block ids referenced by a block. -/
def blockRefs (b : BlockVal) : List Nat := b.nodes.flatMap nodeRefs

/-- The id has a block file on disk. -/
def diskHas (p : Provider) (id : Nat) : Prop := (p.disk.lookup id).isSome = true

instance (p : Provider) (id : Nat) : Decidable (diskHas p id) := by
  unfold diskHas; infer_instance

/-- Every block file on disk references only ids that are on disk. -/
def DiskClosed (p : Provider) : Prop :=
  ∀ e ∈ p.disk, ∀ r ∈ blockRefs (decrypt e.2), diskHas p r

instance (p : Provider) : Decidable (DiskClosed p) := by
  unfold DiskClosed; infer_instance

/-- Every in-memory block is also on disk, as its encryption. -/
def MapConsistent (p : Provider) : Prop :=
  ∀ e ∈ p.blocks, p.disk.lookup e.1 = some (encrypt e.2)

instance (p : Provider) : Decidable (MapConsistent p) := by
  unfold MapConsistent; infer_instance

/-- Reachability relation: `Reach p a r` means block id `r` is reachable from block id `a` by following
block references through the on-disk block files. -/
inductive Reach (p : Provider) : Nat → Nat → Prop where
  | refl (id : Nat) : Reach p id id
  | step {a b r : Nat} {blk : BlockVal} : Reach p a b → p.disk.lookup b = some blk →
      r ∈ blockRefs (decrypt blk) → Reach p a r

end VM

/-! ## Invariant definitions and the concrete C5 scenario -/

/-- The per-frame invariant of the two passes: every real block held by a
stack frame references only ids that are on disk. -/
def FramesOnDisk (p : VM.Provider) (st : List VM.Frame) : Prop :=
  ∀ f ∈ st, ∀ blk, f.block? = some blk → ∀ r ∈ VM.blockRefs blk, VM.diskHas p r

/-- The conclusion bundle threaded through the backtracking pass: both disk
invariants hold in the final provider, the disk only grew, any pending child
id is on disk, and only `add_block` events were emitted. -/
def BackInv (p p' : VM.Provider) (pend' : VM.Pending) (evs : List VM.Event) : Prop :=
  VM.MapConsistent p' ∧ VM.DiskClosed p' ∧
  (∀ k, VM.diskHas p k → VM.diskHas p' k) ∧
  (∀ bid, pend'.entryBlockId = some bid → VM.diskHas p' bid) ∧
  (∀ e ∈ evs, ∃ i, e = VM.Event.addBlock i)

/-- A concrete post-initialize scenario: the root block holds an inline
"welcome" directory. -/
def c5root : VM.BlockVal :=
  ⟨[VM.Node.directory [⟨"welcome", VM.UnionId.localId 1⟩], VM.Node.directory []]⟩

def c5rootId : Nat := VM.encryptedBlockId (VM.encrypt c5root)

def c5index : VM.BlockVal := VM.new_index

def c5indexId : Nat := VM.encryptedBlockId (VM.encrypt c5index)

def c5vault : VM.BlockVal := VM.new_vault c5rootId c5indexId

def c5vaultId : Nat := VM.encryptedBlockId (VM.encrypt c5vault)

/-- The provider state right after `initialize`: all three blocks in the
map and on disk. -/
def c5p : VM.Provider :=
  ⟨[(c5rootId, c5root), (c5indexId, c5index), (c5vaultId, c5vault)],
   [(c5rootId, c5root), (c5indexId, c5index), (c5vaultId, c5vault)]⟩

def c5vs : VM.VaultState := ⟨c5vault, c5root, c5rootId, c5index⟩

def c5path : List VM.PathComp := [VM.PathComp.rootDir, VM.PathComp.normal "a"]

/-- The result of creating `/a` in the concrete scenario. -/
def c5out : VM.Provider × VM.VaultState × List VM.Event :=
  (VM.create_directory c5p c5vs c5path).getD (c5p, c5vs, [])

/-! ## Bit-counting lemmas -/

theorem countOnes_zero : countOnes 0 = 0 := by
  simp [countOnes]

theorem countOnes_of_ne_zero {n : Nat} (h : n ≠ 0) :
    countOnes n = n % 2 + countOnes (n / 2) := by
  rw [countOnes]; simp [h]

theorem countOnes_two_pow (k : Nat) : countOnes (2 ^ k) = 1 := by
  induction k with
  | zero => rw [pow_zero, countOnes_of_ne_zero one_ne_zero]; simp [countOnes_zero]
  | succ k ih =>
    rw [countOnes_of_ne_zero (Nat.pos_of_ne_zero (by positivity)).ne', pow_succ]
    simp [Nat.mul_mod_left, Nat.mul_div_cancel _ (by norm_num : (0:Nat) < 2), ih]

theorem eq_zero_of_countOnes_eq_zero {n : Nat} (h : countOnes n = 0) : n = 0 := by
  induction n using Nat.strong_induction_on with
  | _ n ih =>
    by_contra hn
    rw [countOnes_of_ne_zero hn] at h
    have h2 : countOnes (n / 2) = 0 := by omega
    have := ih (n / 2) (Nat.div_lt_self (Nat.pos_of_ne_zero hn) one_lt_two) h2
    omega

theorem exists_pow_of_countOnes_eq_one {n : Nat} (h : countOnes n = 1) :
    ∃ k, n = 2 ^ k := by
  induction n using Nat.strong_induction_on with
  | _ n ih =>
    rcases Nat.eq_zero_or_pos n with rfl | hn
    · rw [countOnes_zero] at h; omega
    · rw [countOnes_of_ne_zero hn.ne'] at h
      rcases Nat.mod_two_eq_zero_or_one n with h2 | h2
      · have h3 : countOnes (n / 2) = 1 := by omega
        obtain ⟨k, hk⟩ := ih (n / 2) (Nat.div_lt_self hn one_lt_two) h3
        exact ⟨k + 1, by rw [pow_succ]; omega⟩
      · have h3 : countOnes (n / 2) = 0 := by omega
        have h4 := eq_zero_of_countOnes_eq_zero h3
        have : n = 1 := by omega
        exact ⟨0, by simp [this]⟩

/-- Claim C7.  The size and offset constructors accept exactly the specified
ranges: for every `u32` value `s`, `BlockSize::valid(s)` holds iff `s` is one
of `{2^12, …, 2^27}`; for every `u32` value `v`, `BlockOffset::new(v)`
succeeds iff `v < 2^27`; for every `u64` value `v`, `FileOffset::new(v)`
succeeds iff `v < MAX_FILE_SIZE = 2^59 − 280·2^27`; out-of-range inputs make
the constructors fail. -/
theorem constructor_ranges :
    (∀ s : Nat, s < 2 ^ 32 →
        (blockSizeValid s = true ↔ ∃ m, m ≤ 15 ∧ s = 2 ^ (12 + m))) ∧
    (∀ v : Nat, v < 2 ^ 32 → ((blockOffsetNew v).isSome = true ↔ v < 2 ^ 27)) ∧
    (∀ v : Nat, v < 2 ^ 64 → ((fileOffsetNew v).isSome = true ↔ v < MAX_FILE_SIZE)) := by
  refine ⟨fun s hs => ?_, fun v _ => ?_, fun v _ => ?_⟩
  · simp only [blockSizeValid, Bool.and_eq_true, beq_iff_eq, decide_eq_true_eq]
    constructor
    · rintro ⟨⟨h1, h2⟩, h3⟩
      obtain ⟨k, rfl⟩ := exists_pow_of_countOnes_eq_one h1
      have hk27 : k ≤ 27 := by
        by_contra hgt
        have hdvd : (2 : Nat) ^ 32 ∣ 2 ^ k * 2 ^ 4 := by
          rw [← pow_add]; exact pow_dvd_pow 2 (by omega)
        obtain ⟨c, hc⟩ := hdvd
        rw [hc, Nat.mul_mod_right] at h2
        omega
      have hk12 : 12 ≤ k := by
        have hle : (2 : Nat) ^ 12 ≤ 2 ^ k := by
          rcases Nat.lt_or_ge (2 ^ k) (2 ^ 12) with hlt | hle
          · rw [Nat.div_eq_of_lt hlt] at h3; omega
          · exact hle
        exact (Nat.pow_le_pow_iff_right (by norm_num)).1 hle
      exact ⟨k - 12, by omega, by rw [show 12 + (k - 12) = k by omega]⟩
    · rintro ⟨m, hm, rfl⟩
      refine ⟨⟨countOnes_two_pow _, ?_⟩, ?_⟩
      · rw [← pow_add, Nat.mod_eq_of_lt (Nat.pow_lt_pow_right (by norm_num) (by omega))]
        positivity
      · exact Nat.div_pos (Nat.pow_le_pow_right (by norm_num) (by omega)) (by positivity)
  · by_cases h : v < 2 ^ 27 <;> simp [blockOffsetNew, MAX_BLOCK_SIZE, h]
  · by_cases h : v < MAX_FILE_SIZE <;> simp [fileOffsetNew, h]

/-- Witness for `constructor_ranges` at the concrete inputs `s = 4096`,
`v = 5` and `v = 7`. -/
theorem constructor_ranges_witness :
    (blockSizeValid 4096 = true ↔ ∃ m, m ≤ 15 ∧ (4096 : Nat) = 2 ^ (12 + m)) ∧
    ((blockOffsetNew 5).isSome = true ↔ (5 : Nat) < 2 ^ 27) ∧
    ((fileOffsetNew 7).isSome = true ↔ (7 : Nat) < MAX_FILE_SIZE) :=
  ⟨constructor_ranges.1 4096 (by norm_num),
   constructor_ranges.2.1 5 (by norm_num),
   constructor_ranges.2.2 7 (by norm_num)⟩

/-- Claim C10.  `FileOffset::as_block_offset` and `FileSize::as_block_offset`
truncate the underlying `u64` to its low 32 bits: for every value `v` with
`v mod 2^32 < 2^27` they return `BlockOffset(v mod 2^32)` without failure,
even when `v ≥ 2^32` (a silently wrong result); they fail exactly when
`v mod 2^32 ≥ 2^27`. -/
theorem asBlockOffset_truncates :
    ∀ v : Nat, v < 2 ^ 64 →
      (v % 2 ^ 32 < 2 ^ 27 →
        fileOffsetAsBlockOffset v = some (v % 2 ^ 32) ∧
        fileSizeAsBlockOffset v = some (v % 2 ^ 32)) ∧
      (2 ^ 27 ≤ v % 2 ^ 32 →
        fileOffsetAsBlockOffset v = none ∧ fileSizeAsBlockOffset v = none) := by
  intro v _
  constructor
  · intro h
    unfold fileOffsetAsBlockOffset fileSizeAsBlockOffset blockOffsetNew MAX_BLOCK_SIZE
    rw [if_pos h]
    exact ⟨rfl, rfl⟩
  · intro h
    unfold fileOffsetAsBlockOffset fileSizeAsBlockOffset blockOffsetNew MAX_BLOCK_SIZE
    rw [if_neg (Nat.not_lt.2 h)]
    exact ⟨rfl, rfl⟩

/-- Witness for `asBlockOffset_truncates` at `v = 2^32 + 5 ≥ 2^32`: the
conversion silently returns offset `5` inside block 0 for a file offset far
beyond the first block. -/
theorem asBlockOffset_truncates_witness :
    fileOffsetAsBlockOffset (2 ^ 32 + 5) = some ((2 ^ 32 + 5) % 2 ^ 32) ∧
    fileSizeAsBlockOffset (2 ^ 32 + 5) = some ((2 ^ 32 + 5) % 2 ^ 32) :=
  (asBlockOffset_truncates (2 ^ 32 + 5) (by norm_num)).1 (by norm_num)

/-- Claim C2, a code bug.  The claim says `BlockId::new(hash, size, has_header)`
succeeds for every supported size `2^(12+m)`, `m ∈ [0,15]`, recovering the
size via `block_size()`, and fails for unsupported sizes.  In the source,
`BlockId::set_header` computes the size marker as `12 - size.ilog2()` instead
of `size.ilog2() - 12`, so construction fails for every supported size except
4096 — shown here at `size = 8192`, which `BlockSize::valid` accepts — while
it accepts unsupported small sizes such as 40. -/
theorem blockIdNew_set_header_bug :
    BlockId.new (List.replicate 32 0) 8192 false = none ∧
    blockSizeValid 8192 = true ∧
    (BlockId.new (List.replicate 32 0) 4096 true).map
      (fun b => (b.blockSize, b.blockHasHeader, b.validId)) = some (4096, true, true) ∧
    (BlockId.new (List.replicate 32 0) 40 false).isSome = true := by
  have hlog13 : Nat.log2 8192 = 13 := by
    rw [show (8192 : Nat) = 2 ^ 13 by norm_num, Nat.log2_eq_log_two, Nat.log_pow one_lt_two]
  have hlog12 : Nat.log2 4096 = 12 := by
    rw [show (4096 : Nat) = 2 ^ 12 by norm_num, Nat.log2_eq_log_two, Nat.log_pow one_lt_two]
  have hlog5 : Nat.log2 40 = 5 := by
    rw [Nat.log2_eq_log_two]
    exact Nat.log_eq_of_pow_le_of_lt_pow (by norm_num) (by norm_num)
  have hco : countOnes 8192 = 1 := by
    rw [show (8192 : Nat) = 2 ^ 13 by norm_num]; exact countOnes_two_pow 13
  refine ⟨?_, ?_, ?_, ?_⟩
  · unfold BlockId.new setHeaderMarker
    rw [hlog13]
    norm_num
  · unfold blockSizeValid
    rw [hco]
    norm_num
  · unfold BlockId.new setHeaderMarker
    rw [hlog12]
    norm_num [BlockId.blockSize, BlockId.blockHasHeader, BlockId.validId,
      BlockId.supportedVersion, BlockId.header, blockSizeFromMarker]
    decide
  · unfold BlockId.new setHeaderMarker
    rw [hlog5]
    norm_num

/-! ## Correctness of the translator against the reference schedule -/

/-- The reference prefix has 334 blocks. -/
theorem refSizes_length : refSizes.length = 334 := by decide

/-- The loops of the translator emit exactly the reference prefix: block `k`
carries index `k` and size `refBlockSize k`. -/
theorem emittedBlocks_eq_ref :
    emittedBlocks = (List.range' 0 334).map fun k => (k, refBlockSize k) := by decide

/-- Every block of the reference prefix is at most 128 MiB. -/
theorem refSizes_le : ∀ x ∈ refSizes, x ≤ 2 ^ 27 := by decide

theorem refBlockSize_le (i : Nat) : refBlockSize i ≤ 2 ^ 27 := by
  unfold refBlockSize
  cases h : refSizes[i]? with
  | none => simp
  | some x => simpa using refSizes_le x (List.getElem?_mem h)

/-- The reference prefix adds up to `REPEATING_BLOCKS_START_OFFSET`. -/
theorem refStart_334 : refStart 334 = REPEATING_BLOCKS_START_OFFSET := by decide

theorem refBlockSize_tail (j : Nat) : refBlockSize (334 + j) = 2 ^ 27 := by
  unfold refBlockSize
  rw [List.getElem?_eq_none (by rw [refSizes_length]; omega)]
  rfl

theorem refStart_tail (k : Nat) :
    refStart (334 + k) = REPEATING_BLOCKS_START_OFFSET + k * 2 ^ 27 := by
  induction k with
  | zero => simpa using refStart_334
  | succ k ih =>
    rw [show 334 + (k + 1) = (334 + k) + 1 by omega]
    show refStart (334 + k) + refBlockSize (334 + k) = _
    rw [ih, refBlockSize_tail]
    ring

/-- The early-return search is correct on any window of the reference
schedule: searching the blocks `i₀, …, i₀ + n - 1`, starting the running
offset at `refStart i₀`, finds the unique reference block containing `o`. -/
theorem findBlockStart_ref (o : Nat) :
    ∀ n i₀ : Nat, refStart i₀ ≤ o → o < refStart (i₀ + n) →
      ∃ i, i₀ ≤ i ∧ i < i₀ + n ∧
        findBlockStart o ((List.range' i₀ n).map fun k => (k, refBlockSize k))
            (refStart i₀) = some (i, refStart i) ∧
        refStart i ≤ o ∧ o < refStart i + refBlockSize i := by
  intro n
  induction n with
  | zero =>
    intro i₀ h1 h2
    rw [Nat.add_zero] at h2
    omega
  | succ n ih =>
    intro i₀ h1 h2
    rw [List.range'_succ, List.map_cons]
    by_cases hlt : o < refStart i₀ + refBlockSize i₀
    · exact ⟨i₀, le_refl _, by omega, by rw [findBlockStart, if_pos hlt], h1, hlt⟩
    · have hs : refStart (i₀ + 1) = refStart i₀ + refBlockSize i₀ := rfl
      obtain ⟨i, hi1, hi2, hfind, hlo, hhi⟩ :=
        ih (i₀ + 1) (by omega) (by rw [show i₀ + 1 + n = i₀ + (n + 1) by omega]; exact h2)
      refine ⟨i, by omega, by omega, ?_, hlo, hhi⟩
      rw [findBlockStart, if_neg hlt, ← hs]
      exact hfind

/-- Claim C1.  For every `FileOffset o` with `o < MAX_FILE_SIZE`,
`translate_file_offset(o)` returns `(i, p)` such that, under the reference
schedule, the `i`-th block covers `[s_i, s_i + size_i)`, `o` lies in that
interval, and `p = o − s_i`; for `o = MAX_FILE_SIZE` the function fails. -/
theorem translate_file_offset_correct :
    (∀ o : Nat, o < MAX_FILE_SIZE →
      ∃ i p, translate_file_offset o = some (i, p) ∧
        refStart i ≤ o ∧ o < refStart i + refBlockSize i ∧ p = o - refStart i) ∧
    translate_file_offset MAX_FILE_SIZE = none := by
  constructor
  · intro o ho
    by_cases hpre : o < REPEATING_BLOCKS_START_OFFSET
    · -- the deterministic variable-size prefix
      obtain ⟨i, hi0, hi334, hfind, hlo, hhi⟩ :=
        findBlockStart_ref o 334 0 (Nat.zero_le o)
          (by rw [Nat.zero_add, refStart_334]; exact hpre)
      have hfind' : findBlockStart o
          ((List.range' 0 334).map fun k => (k, refBlockSize k)) 0 = some (i, refStart i) :=
        hfind
      have hplt : o - refStart i < 2 ^ 27 :=
        lt_of_lt_of_le (by omega) (refBlockSize_le i)
      refine ⟨i, o - refStart i, ?_, hlo, hhi, rfl⟩
      unfold translate_file_offset
      rw [if_pos ho, if_pos hpre, emittedBlocks_eq_ref, hfind']
      have hsome : fileOffsetAsBlockOffset (o - refStart i) = some (o - refStart i) := by
        unfold fileOffsetAsBlockOffset blockOffsetNew MAX_BLOCK_SIZE
        rw [Nat.mod_eq_of_lt (lt_of_lt_of_le hplt (by norm_num))]
        exact if_pos hplt
      show Option.map (fun p => (i, p)) (fileOffsetAsBlockOffset (o - refStart i)) =
        some (i, o - refStart i)
      rw [hsome]
      rfl
    · -- the uniform 128 MiB tail
      have hR : REPEATING_BLOCKS_START_OFFSET ≤ o := Nat.not_lt.1 hpre
      have hb : blockSizeFromMarker 15 = 2 ^ 27 := rfl
      have hdm : 2 ^ 27 * ((o - REPEATING_BLOCKS_START_OFFSET) / 2 ^ 27) +
          (o - REPEATING_BLOCKS_START_OFFSET) % 2 ^ 27 = o - REPEATING_BLOCKS_START_OFFSET :=
        Nat.div_add_mod _ _
      have hrlt : (o - REPEATING_BLOCKS_START_OFFSET) % 2 ^ 27 < 2 ^ 27 :=
        Nat.mod_lt _ (by norm_num)
      have hRval : REPEATING_BLOCKS_START_OFFSET = 7247757312 := rfl
      have hMval : MAX_FILE_SIZE = 576460714722459648 := by norm_num [MAX_FILE_SIZE]
      refine ⟨334 + (o - REPEATING_BLOCKS_START_OFFSET) / 2 ^ 27,
        (o - REPEATING_BLOCKS_START_OFFSET) % 2 ^ 27, ?_, ?_, ?_, ?_⟩
      · have hsome :
            fileOffsetAsBlockOffset ((o - REPEATING_BLOCKS_START_OFFSET) % 2 ^ 27) =
              some ((o - REPEATING_BLOCKS_START_OFFSET) % 2 ^ 27) := by
          unfold fileOffsetAsBlockOffset blockOffsetNew MAX_BLOCK_SIZE
          rw [Nat.mod_eq_of_lt (lt_of_lt_of_le hrlt (by norm_num))]
          exact if_pos hrlt
        unfold translate_file_offset
        rw [if_pos ho, if_neg hpre, hb,
          if_pos (show (o - REPEATING_BLOCKS_START_OFFSET) / 2 ^ 27 * 2 ^ 27 <
            MAX_FILE_SIZE by omega),
          show o - (REPEATING_BLOCKS_START_OFFSET +
              (o - REPEATING_BLOCKS_START_OFFSET) / 2 ^ 27 * 2 ^ 27) =
            (o - REPEATING_BLOCKS_START_OFFSET) % 2 ^ 27 by omega,
          hsome, Option.map_some',
          Nat.mod_eq_of_lt (show (o - REPEATING_BLOCKS_START_OFFSET) / 2 ^ 27 < 2 ^ 32 by omega),
          Nat.mod_eq_of_lt
            (show 334 + (o - REPEATING_BLOCKS_START_OFFSET) / 2 ^ 27 < 2 ^ 32 by omega)]
      · rw [refStart_tail]; omega
      · rw [refStart_tail, refBlockSize_tail]; omega
      · rw [refStart_tail]; omega
  · unfold translate_file_offset
    rw [if_neg (lt_irrefl _)]

/-- Witness for `translate_file_offset_correct` at `o = 7000` (the two-block
test vector of the source's test suite). -/
theorem translate_file_offset_correct_witness :
    ∃ i p, translate_file_offset 7000 = some (i, p) ∧
      refStart i ≤ 7000 ∧ 7000 < refStart i + refBlockSize i ∧ p = 7000 - refStart i :=
  translate_file_offset_correct.1 7000 (by norm_num [MAX_FILE_SIZE])

/-! ## Claims about the provider and the info-block codec -/

/-- Claim C3, a code bug.  The claim says `get_root_id_and_index_id` applied to
`new_vault(r, x)` returns `(r, x)`, the second component read from the vault
node's `index` field.  The source reads `vault_r.get_root()` for **both**
components and never reads `index` (spec §9 flags this as a likely bug): at
`r = 1, x = 2` it returns `(1, 1)`, not `(1, 2)`. -/
theorem get_root_id_and_index_id_reads_root_twice :
    VM.get_root_id_and_index_id (VM.new_vault 1 2) = some (1, 1) ∧
    ((1, 1) : Nat × Nat) ≠ (1, 2) := by
  constructor
  · rfl
  · decide

/-- Claim C4 counterexample.  A provider state whose disk has block 5 but
whose in-memory map does not: `get_block` fails even though the disk has the
block, refuting "it fails only when neither the map nor the disk has the
block". -/
theorem get_block_ignores_disk_cex :
    ((⟨[], [(5, VM.new_directory)]⟩ : VM.Provider).disk.lookup 5).isSome = true ∧
    VM.Provider.get_block ⟨[], [(5, VM.new_directory)]⟩ 5 = none := by
  constructor
  · rfl
  · rfl

/-- Claim C4, corrected.  `Provider::get_block(id)` consults *only* the
in-memory map: it returns the mapped block on a hit and fails on any map
miss, even when the on-disk file exists (the disk lookup is a `TODO` in the
source).  The read-decrypt-populate disk path exists only as the separate
`load_block_from_file`, which succeeds exactly when the disk has the file. -/
theorem get_block_map_only :
    ∀ (p : VM.Provider) (id : Nat),
      (∀ b, p.blocks.lookup id = some b → p.get_block id = some b) ∧
      (p.blocks.lookup id = none → p.get_block id = none) ∧
      (∀ enc, p.disk.lookup id = some enc →
        p.load_block_from_file id =
          some (VM.decrypt enc, { p with blocks := (id, VM.decrypt enc) :: p.blocks })) ∧
      (p.disk.lookup id = none → p.load_block_from_file id = none) := by
  intro p id
  refine ⟨fun b h => ?_, fun h => ?_, fun enc h => ?_, fun h => ?_⟩
  · unfold VM.Provider.get_block; rw [h]
  · unfold VM.Provider.get_block; rw [h]
  · unfold VM.Provider.load_block_from_file; rw [h]
  · unfold VM.Provider.load_block_from_file; rw [h]

/-- Witness for `get_block_map_only`: a map hit on id 3 and a disk load of
id 7. -/
theorem get_block_map_only_witness :
    VM.Provider.get_block ⟨[(3, VM.new_directory)], []⟩ 3 = some VM.new_directory ∧
    VM.Provider.load_block_from_file ⟨[], [(7, VM.new_index)]⟩ 7 =
      some (VM.decrypt VM.new_index,
        ⟨[(7, VM.decrypt VM.new_index)], [(7, VM.new_index)]⟩) :=
  ⟨(get_block_map_only ⟨[(3, VM.new_directory)], []⟩ 3).1 VM.new_directory rfl,
   (get_block_map_only ⟨[], [(7, VM.new_index)]⟩ 7).2.2.1 VM.new_index rfl⟩

/-- Claim C6 counterexample.  When `id` is already in the map, `add_block`
returns the *argument* block, not the stored one: with block `new_directory`
stored under id 7 and a different block `new_index` passed in, the call
returns `new_index`, refuting "returns the existing block unchanged". -/
theorem add_block_returns_argument_cex :
    (VM.Provider.add_block ⟨[(7, VM.new_directory)], [(7, VM.new_directory)]⟩ 7
        VM.new_index VM.new_index).1 = VM.new_index ∧
    (⟨[(7, VM.new_directory)], [(7, VM.new_directory)]⟩ : VM.Provider).blocks.lookup 7 =
      some VM.new_directory ∧
    VM.new_directory ≠ VM.new_index := by
  refine ⟨rfl, rfl, ?_⟩
  decide

/-- Claim C6, corrected.  `Provider::add_block` is an idempotent insert that
returns the block passed by the caller: when `id` is already in the map it
performs no map update and no disk write and returns the argument block
(under content addressing this coincides with the stored block); when `id`
is absent it inserts the plaintext block into the map, writes the encrypted
bytes to disk, and returns the block. -/
theorem add_block_idempotent_insert :
    ∀ (p : VM.Provider) (id : Nat) (encryptedBlock block : VM.BlockVal),
      ((p.blocks.lookup id).isSome = true →
        p.add_block id encryptedBlock block = (block, p)) ∧
      (p.blocks.lookup id = none →
        p.add_block id encryptedBlock block =
          (block, ⟨(id, block) :: p.blocks, (id, encryptedBlock) :: p.disk⟩)) := by
  intro p id encryptedBlock block
  constructor
  · intro h
    unfold VM.Provider.add_block
    rw [if_pos h]
  · intro h
    unfold VM.Provider.add_block
    rw [if_neg (by rw [h]; simp)]

/-- Witness for `add_block_idempotent_insert`: a present id (no state
change) and an absent id (map insert plus disk write). -/
theorem add_block_idempotent_insert_witness :
    VM.Provider.add_block ⟨[(7, VM.new_directory)], [(7, VM.new_directory)]⟩ 7
        VM.new_directory VM.new_directory =
      (VM.new_directory, ⟨[(7, VM.new_directory)], [(7, VM.new_directory)]⟩) ∧
    VM.Provider.add_block ⟨[], []⟩ 9 VM.new_index VM.new_index =
      (VM.new_index, ⟨[(9, VM.new_index)], [(9, VM.new_index)]⟩) :=
  ⟨(add_block_idempotent_insert ⟨[(7, VM.new_directory)], [(7, VM.new_directory)]⟩ 7
      VM.new_directory VM.new_directory).1 rfl,
   (add_block_idempotent_insert ⟨[], []⟩ 9 VM.new_index VM.new_index).2 rfl⟩

/-! ## C9: the two indistinguishable `None` cases of the entry rewrite -/

theorem setEntryScan_of_no_match {entryName : String} {blockId : Option Nat} {nodeIndex : Nat} :
    ∀ {es : List VM.Entry}, (∀ e ∈ es, e.name ≠ entryName) →
      VM.setEntryScan entryName blockId nodeIndex es = some none := by
  intro es
  induction es with
  | nil => intro _; rfl
  | cons e rest ih =>
    intro h
    unfold VM.setEntryScan
    rw [if_neg (h e (List.mem_cons_self e rest))]
    rw [ih fun x hx => h x (List.mem_cons_of_mem e hx)]
    rfl

theorem setEntryScan_of_all_match {entryName : String} {blockId : Option Nat} {nodeIndex : Nat} :
    ∀ {es : List VM.Entry},
      (∀ e ∈ es, e.name = entryName → VM.entryIdMatches e.id blockId nodeIndex = some true) →
      VM.setEntryScan entryName blockId nodeIndex es = some none := by
  intro es
  induction es with
  | nil => intro _; rfl
  | cons e rest ih =>
    intro h
    unfold VM.setEntryScan
    by_cases hn : e.name = entryName
    · rw [if_pos hn, h e (List.mem_cons_self e rest) hn,
        ih fun x hx hxn => h x (List.mem_cons_of_mem e hx) hxn]
      rfl
    · rw [if_neg hn, ih fun x hx hxn => h x (List.mem_cons_of_mem e hx) hxn]
      rfl

/-- Claim C9.  `directory_set_entry_block_id_and_node_index` returns the inner
`None` in two indistinguishable cases: when no entry in the directory node
is named `entry_name`, and when every entry so named already carries the
requested `(Option<BlockId>, node_index)` id — in particular when the single
matching entry's id already matches.  A caller cannot tell "no change
needed" apart from "name not found". -/
theorem set_entry_none_ambiguous :
    ∀ (b : VM.BlockVal) (dirIdx : Nat) (entryName : String) (blockId : Option Nat)
      (nodeIndex : Nat) (es : List VM.Entry), VM.getDirEntries b dirIdx = some es →
      ((∀ e ∈ es, e.name ≠ entryName) →
        VM.directory_set_entry_block_id_and_node_index b dirIdx entryName blockId nodeIndex =
          some none) ∧
      ((∀ e ∈ es, e.name = entryName →
          VM.entryIdMatches e.id blockId nodeIndex = some true) →
        VM.directory_set_entry_block_id_and_node_index b dirIdx entryName blockId nodeIndex =
          some none) := by
  intro b dirIdx entryName blockId nodeIndex es hes
  unfold VM.getDirEntries at hes
  unfold VM.directory_set_entry_block_id_and_node_index
  constructor
  · intro h
    rcases hnodes : b.nodes[dirIdx]? with _ | node
    · rw [hnodes] at hes; exact absurd hes (by simp)
    · rw [hnodes] at hes
      cases node with
      | directory entries =>
        simp only [Option.some.injEq] at hes
        subst hes
        show Option.map (Option.map fun es =>
            VM.BlockVal.mk (b.nodes.set dirIdx (VM.Node.directory es)))
          (VM.setEntryScan entryName blockId nodeIndex entries) = some none
        rw [setEntryScan_of_no_match h]
        rfl
      | file sz i => exact absurd hes (by simp)
      | vault r ix => exact absurd hes (by simp)
  · intro h
    rcases hnodes : b.nodes[dirIdx]? with _ | node
    · rw [hnodes] at hes; exact absurd hes (by simp)
    · rw [hnodes] at hes
      cases node with
      | directory entries =>
        simp only [Option.some.injEq] at hes
        subst hes
        show Option.map (Option.map fun es =>
            VM.BlockVal.mk (b.nodes.set dirIdx (VM.Node.directory es)))
          (VM.setEntryScan entryName blockId nodeIndex entries) = some none
        rw [setEntryScan_of_all_match h]
        rfl
      | file sz i => exact absurd hes (by simp)
      | vault r ix => exact absurd hes (by simp)

/-! ## C8: a fully resolved path makes `create_directory` a no-op -/

theorem forwardPass_of_resolves (p : VM.Provider) :
    ∀ (cs : List VM.PathComp) (st : List VM.Frame) (created : Bool),
      VM.resolvesFrom p cs st = true →
      ∃ st', VM.forwardPass p cs st created = some (st', created) := by
  intro cs
  induction cs with
  | nil => exact fun st created _ => ⟨st, rfl⟩
  | cons c cs ih =>
    intro st created h
    cases c with
    | prefixComp =>
      simp only [VM.resolvesFrom] at h
      obtain ⟨st', h'⟩ := ih st created h
      exact ⟨st', by simp only [VM.forwardPass, VM.forwardStep]; exact h'⟩
    | rootDir =>
      simp only [VM.resolvesFrom] at h
      obtain ⟨st', h'⟩ := ih st created h
      exact ⟨st', by simp only [VM.forwardPass, VM.forwardStep]; exact h'⟩
    | curDir =>
      simp only [VM.resolvesFrom] at h
      obtain ⟨st', h'⟩ := ih st created h
      exact ⟨st', by simp only [VM.forwardPass, VM.forwardStep]; exact h'⟩
    | parentDir =>
      simp only [VM.resolvesFrom] at h
      exact absurd h Bool.false_ne_true
    | normal name =>
      simp only [VM.resolvesFrom] at h
      cases st with
      | nil => simp at h
      | cons top rest =>
        rcases hf : VM.findNearestBlock (top :: rest) with _ | blk
        · simp only [hf] at h
          exact absurd h Bool.false_ne_true
        · simp only [hf] at h
          rcases hg : VM.directory_get_entry_block_id_and_node_index blk top.nodeIndex name
            with _ | og
          · simp only [hg] at h
            exact absurd h Bool.false_ne_true
          · simp only [hg] at h
            rcases og with _ | ⟨obid, nIdx⟩
            · simp at h
            · rcases obid with _ | bid
              · obtain ⟨st', h'⟩ := ih _ created h
                exact ⟨st', by
                  simp only [VM.forwardPass, VM.forwardStep, hf, hg]; exact h'⟩
              · rcases hb : p.get_block bid with _ | b
                · simp only [hb] at h
                  exact absurd h Bool.false_ne_true
                · simp only [hb] at h
                  obtain ⟨st', h'⟩ := ih _ created h
                  exact ⟨st', by
                    simp only [VM.forwardPass, VM.forwardStep, hf, hg, hb]; exact h'⟩

/-- Claim C8.  If every component of the given path already resolves to an
existing directory entry, `Vault::create_directory` performs no
`Provider::add_block` call, does not rewrite the vault-id pointer file (the
event trace is empty), and leaves the provider and the cached `vault`,
`root`, and `root_id` fields of the vault state unchanged. -/
theorem create_directory_noop_when_resolved :
    ∀ (p : VM.Provider) (vs : VM.VaultState) (path : List VM.PathComp),
      VM.resolvesFrom p path [⟨some vs.root, 0, ""⟩] = true →
      VM.create_directory p vs path = some (p, vs, []) := by
  intro p vs path h
  obtain ⟨st', h'⟩ := forwardPass_of_resolves p path [⟨some vs.root, 0, ""⟩] false h
  simp only [VM.create_directory, h', Bool.false_eq_true, if_false]

/-- Witness for `create_directory_noop_when_resolved` at the post-initialize
state (root block with an inline "welcome" directory) and the existing path
`/welcome`. -/
theorem create_directory_noop_when_resolved_witness :
    VM.create_directory ⟨[], []⟩
      ⟨VM.new_vault 1 0,
        ⟨[VM.Node.directory [⟨"welcome", VM.UnionId.localId 1⟩], VM.Node.directory []]⟩,
        1, VM.new_index⟩
      [VM.PathComp.rootDir, VM.PathComp.normal "welcome"] =
      some (⟨[], []⟩,
        ⟨VM.new_vault 1 0,
          ⟨[VM.Node.directory [⟨"welcome", VM.UnionId.localId 1⟩], VM.Node.directory []]⟩,
          1, VM.new_index⟩, []) :=
  create_directory_noop_when_resolved ⟨[], []⟩
    ⟨VM.new_vault 1 0,
      ⟨[VM.Node.directory [⟨"welcome", VM.UnionId.localId 1⟩], VM.Node.directory []]⟩,
      1, VM.new_index⟩
    [VM.PathComp.rootDir, VM.PathComp.normal "welcome"] (by decide)

/-- Witness for `set_entry_none_ambiguous` at a concrete one-entry directory
block: both a missing name and an already-matching id yield `Some(None)`. -/
theorem set_entry_none_ambiguous_witness :
    VM.directory_set_entry_block_id_and_node_index
      ⟨[VM.Node.directory [⟨"a", VM.UnionId.localId 3⟩]]⟩ 0 "zz" none 0 = some none ∧
    VM.directory_set_entry_block_id_and_node_index
      ⟨[VM.Node.directory [⟨"a", VM.UnionId.localId 3⟩]]⟩ 0 "a" none 3 = some none :=
  ⟨(set_entry_none_ambiguous ⟨[VM.Node.directory [⟨"a", VM.UnionId.localId 3⟩]]⟩ 0 "zz" none 0
      [⟨"a", VM.UnionId.localId 3⟩] rfl).1 (by decide),
   (set_entry_none_ambiguous ⟨[VM.Node.directory [⟨"a", VM.UnionId.localId 3⟩]]⟩ 0 "a" none 3
      [⟨"a", VM.UnionId.localId 3⟩] rfl).2 (by decide)⟩

/-! ## C5: crash consistency of `create_directory`

Supporting lemmas: association-list facts, preservation of the disk
invariants by `add_block`, and containment of the block references produced
by the functional block updates. -/

theorem lookup_cons_eq {β : Type} (k : Nat) (e : Nat × β) (rest : List (Nat × β)) :
    List.lookup k (e :: rest) = if k = e.1 then some e.2 else List.lookup k rest := by
  rw [show e = (e.1, e.2) from rfl, List.lookup_cons]
  by_cases hk : k = e.1
  · have hb : (k == e.1) = true := by simpa using hk
    simp [hb, hk]
  · have hb : (k == e.1) = false := by simpa using hk
    simp [hb, hk]

theorem lookup_mem {β : Type} :
    ∀ {l : List (Nat × β)} {k : Nat} {v : β}, l.lookup k = some v → (k, v) ∈ l := by
  intro l
  induction l with
  | nil => intro k v h; simp [List.lookup] at h
  | cons e rest ih =>
    intro k v h
    rw [lookup_cons_eq] at h
    by_cases hk : k = e.1
    · rw [if_pos hk] at h
      simp only [Option.some.injEq] at h
      exact List.mem_cons.2 (Or.inl (Prod.ext hk h.symm))
    · rw [if_neg hk] at h
      exact List.mem_cons_of_mem _ (ih h)

theorem lookup_none_not_mem {β : Type} :
    ∀ {l : List (Nat × β)} {k : Nat}, l.lookup k = none → ∀ v : β, (k, v) ∉ l := by
  intro l
  induction l with
  | nil => intro k _ v hv; simp at hv
  | cons e rest ih =>
    intro k h v hv
    rw [lookup_cons_eq] at h
    by_cases hk : k = e.1
    · rw [if_pos hk] at h; cases h
    · rw [if_neg hk] at h
      rcases List.mem_cons.1 hv with he | hm
      · exact hk (congrArg Prod.fst he)
      · exact ih h v hm

theorem diskHas_cons {p : VM.Provider} {i : Nat} {e : VM.BlockVal} {k : Nat}
    (h : VM.diskHas p k) (blocks' : List (Nat × VM.BlockVal)) :
    VM.diskHas ⟨blocks', (i, e) :: p.disk⟩ k := by
  unfold VM.diskHas at h ⊢
  rw [lookup_cons_eq]
  by_cases hk : k = i
  · rw [if_pos hk]; rfl
  · rw [if_neg hk]; exact h

theorem add_block_disk_mono {p : VM.Provider} {id : Nat} {enc blk : VM.BlockVal} {k : Nat}
    (h : VM.diskHas p k) : VM.diskHas (p.add_block id enc blk).2 k := by
  unfold VM.Provider.add_block
  by_cases hp : (p.blocks.lookup id).isSome
  · rw [if_pos hp]; exact h
  · rw [if_neg hp]
    exact diskHas_cons h _

theorem add_block_diskHas_self {p : VM.Provider} {id : Nat} {enc blk : VM.BlockVal}
    (hM : VM.MapConsistent p) : VM.diskHas (p.add_block id enc blk).2 id := by
  unfold VM.Provider.add_block
  by_cases hp : (p.blocks.lookup id).isSome
  · rw [if_pos hp]
    rcases hb : p.blocks.lookup id with _ | b
    · rw [hb] at hp; simp at hp
    · have := hM (id, b) (lookup_mem hb)
      unfold VM.diskHas
      rw [this]
      rfl
  · rw [if_neg hp]
    unfold VM.diskHas
    rw [lookup_cons_eq, if_pos rfl]
    rfl

theorem add_block_MapConsistent {p : VM.Provider} {id : Nat} {blk : VM.BlockVal}
    (hM : VM.MapConsistent p) :
    VM.MapConsistent (p.add_block id (VM.encrypt blk) blk).2 := by
  unfold VM.Provider.add_block
  by_cases hp : (p.blocks.lookup id).isSome
  · rw [if_pos hp]; exact hM
  · rw [if_neg hp]
    intro e he
    rcases List.mem_cons.1 he with he1 | he2
    · subst he1
      rw [lookup_cons_eq, if_pos rfl]
    · have hne : e.1 ≠ id := by
        intro hcontra
        rcases hl : p.blocks.lookup id with _ | b
        · exact lookup_none_not_mem hl e.2 (by
            rw [← hcontra]; exact he2)
        · rw [hl] at hp; simp at hp
      rw [lookup_cons_eq, if_neg hne]
      exact hM e he2

theorem add_block_DiskClosed {p : VM.Provider} {id : Nat} {enc blk : VM.BlockVal}
    (hC : VM.DiskClosed p) (hrefs : ∀ r ∈ VM.blockRefs (VM.decrypt enc), VM.diskHas p r) :
    VM.DiskClosed (p.add_block id enc blk).2 := by
  unfold VM.Provider.add_block
  by_cases hp : (p.blocks.lookup id).isSome
  · rw [if_pos hp]; exact hC
  · rw [if_neg hp]
    intro e he r hr
    rcases List.mem_cons.1 he with he1 | he2
    · subst he1
      exact diskHas_cons (hrefs r hr) _
    · exact diskHas_cons (hC e he2 r hr) _

/-! ### Containment of block references under the functional updates -/

theorem blockRefs_create_local {b : VM.BlockVal} {i : Nat} {name : String} {k : VM.NodeKind}
    {b' : VM.BlockVal} {idx : Nat}
    (h : VM.directory_create_local_node b i name k = some (b', idx)) :
    ∀ r ∈ VM.blockRefs b', r ∈ VM.blockRefs b := by
  intro r hr
  unfold VM.directory_create_local_node at h
  rcases hn : b.nodes[i]? with _ | nd
  · rw [hn] at h; cases h
  · rw [hn] at h
    cases nd with
    | directory es =>
      simp only [Option.some.injEq, Prod.mk.injEq] at h
      obtain ⟨hb', _⟩ := h
      subst hb'
      unfold VM.blockRefs at hr
      obtain ⟨nd', hnd', hr'⟩ := List.exists_of_mem_flatMap hr
      rcases List.mem_append.1 hnd' with hnd1 | hnd2
      · rcases List.mem_or_eq_of_mem_set hnd1 with hmem | hset
        · exact List.mem_flatMap.2 ⟨nd', hmem, hr'⟩
        · subst hset
          simp only [VM.nodeRefs, List.flatMap_append] at hr'
          rcases List.mem_append.1 hr' with hr1 | hr2
          · exact List.mem_flatMap.2 ⟨VM.Node.directory es, List.getElem?_mem hn,
              by simpa [VM.nodeRefs] using hr1⟩
          · simp [VM.idRefs] at hr2
      · have hnd2' := List.mem_singleton.1 hnd2
        cases k <;> simp_all [VM.nodeRefs, VM.idRefs]
    | file sz uid => cases h
    | vault x y => cases h

theorem setEntryScan_refs {name : String} {bid : Option Nat} {ni : Nat} :
    ∀ {es es' : List VM.Entry}, VM.setEntryScan name bid ni es = some (some es') →
      ∀ e' ∈ es', e' ∈ es ∨ e'.id = VM.requestedId bid ni := by
  intro es
  induction es with
  | nil => intro es' h; cases h
  | cons e rest ih =>
    intro es' h e' he'
    unfold VM.setEntryScan at h
    by_cases hn : e.name = name
    · rw [if_pos hn] at h
      rcases hm : VM.entryIdMatches e.id bid ni with _ | m
      · rw [hm] at h; cases h
      · rw [hm] at h
        cases m with
        | true =>
          simp only at h
          rcases hs : VM.setEntryScan name bid ni rest with _ | orest
          · rw [hs] at h; cases h
          · rw [hs] at h
            cases orest with
            | none => simp at h
            | some rest' =>
              simp only [Option.map_some', Option.some.injEq] at h
              subst h
              rcases List.mem_cons.1 he' with rfl | hmem
              · exact Or.inl (List.mem_cons_self _ _)
              · rcases ih hs e' hmem with hin | hid
                · exact Or.inl (List.mem_cons_of_mem _ hin)
                · exact Or.inr hid
        | false =>
          simp only [Option.some.injEq] at h
          subst h
          rcases List.mem_cons.1 he' with rfl | hmem
          · exact Or.inr rfl
          · exact Or.inl (List.mem_cons_of_mem _ hmem)
    · rw [if_neg hn] at h
      rcases hs : VM.setEntryScan name bid ni rest with _ | orest
      · rw [hs] at h; cases h
      · rw [hs] at h
        cases orest with
        | none => simp at h
        | some rest' =>
          simp only [Option.map_some', Option.some.injEq] at h
          subst h
          rcases List.mem_cons.1 he' with rfl | hmem
          · exact Or.inl (List.mem_cons_self _ _)
          · rcases ih hs e' hmem with hin | hid
            · exact Or.inl (List.mem_cons_of_mem _ hin)
            · exact Or.inr hid

theorem blockRefs_set_entry {b : VM.BlockVal} {i : Nat} {name : String} {bid : Option Nat}
    {ni : Nat} {b' : VM.BlockVal}
    (h : VM.directory_set_entry_block_id_and_node_index b i name bid ni = some (some b')) :
    ∀ r ∈ VM.blockRefs b', r ∈ VM.blockRefs b ∨ r ∈ VM.idRefs (VM.requestedId bid ni) := by
  intro r hr
  unfold VM.directory_set_entry_block_id_and_node_index at h
  rcases hn : b.nodes[i]? with _ | nd
  · rw [hn] at h; cases h
  · rw [hn] at h
    cases nd with
    | directory es =>
      simp only at h
      rcases hs : VM.setEntryScan name bid ni es with _ | oes
      · rw [hs] at h; cases h
      · rw [hs] at h
        cases oes with
        | none => simp at h
        | some es' =>
          simp only [Option.map_some', Option.some.injEq] at h
          subst h
          unfold VM.blockRefs at hr
          obtain ⟨nd', hnd', hr'⟩ := List.exists_of_mem_flatMap hr
          rcases List.mem_or_eq_of_mem_set hnd' with hmem | hset
          · exact Or.inl (List.mem_flatMap.2 ⟨nd', hmem, hr'⟩)
          · subst hset
            unfold VM.nodeRefs at hr'
            obtain ⟨e', he', hre⟩ := List.exists_of_mem_flatMap hr'
            rcases setEntryScan_refs hs e' he' with hin | hid
            · exact Or.inl (List.mem_flatMap.2
                ⟨VM.Node.directory es, List.getElem?_mem hn,
                  List.mem_flatMap.2 ⟨e', hin, hre⟩⟩)
            · exact Or.inr (hid ▸ hre)
    | file sz uid => cases h
    | vault x y => cases h

theorem blockRefs_update_root {b : VM.BlockVal} {nid : Nat} {b' : VM.BlockVal}
    (h : VM.update_root_id b nid = some b') :
    ∀ r ∈ VM.blockRefs b', r = nid ∨ r ∈ VM.blockRefs b := by
  intro r hr
  unfold VM.update_root_id at h
  rcases hn : b.nodes[0]? with _ | nd
  · rw [hn] at h; cases h
  · rw [hn] at h
    cases nd with
    | directory es => cases h
    | file sz uid => cases h
    | vault root index =>
      simp only [Option.some.injEq] at h
      subst h
      unfold VM.blockRefs at hr
      obtain ⟨nd', hnd', hr'⟩ := List.exists_of_mem_flatMap hr
      rcases List.mem_or_eq_of_mem_set hnd' with hmem | hset
      · exact Or.inr (List.mem_flatMap.2 ⟨nd', hmem, hr'⟩)
      · subst hset
        unfold VM.nodeRefs at hr'
        rcases List.mem_append.1 hr' with hr1 | hr2
        · simp [VM.idRefs] at hr1
          exact Or.inl hr1
        · exact Or.inr (List.mem_flatMap.2
            ⟨VM.Node.vault root index, List.getElem?_mem hn,
              List.mem_append.2 (Or.inr hr2)⟩)

/-! ### Stack lemmas and the forward-pass invariant -/

theorem findNearestBlock_mem :
    ∀ {st : List VM.Frame} {blk : VM.BlockVal}, VM.findNearestBlock st = some blk →
      ∃ f ∈ st, f.block? = some blk := by
  intro st
  induction st with
  | nil => intro blk h; cases h
  | cons f rest ih =>
    intro blk h
    unfold VM.findNearestBlock at h
    rcases hf : f.block? with _ | b
    · rw [hf] at h
      obtain ⟨f', hf', hb'⟩ := ih h
      exact ⟨f', List.mem_cons_of_mem _ hf', hb'⟩
    · rw [hf] at h
      simp only [Option.some.injEq] at h
      exact ⟨f, List.mem_cons_self _ _, by rw [hf, h]⟩

theorem replaceNearestBlock_blocks {nb : VM.BlockVal} :
    ∀ {st : List VM.Frame}, ∀ f' ∈ VM.replaceNearestBlock nb st, ∀ blk',
      f'.block? = some blk' → blk' = nb ∨ ∃ f ∈ st, f.block? = some blk' := by
  intro st
  induction st with
  | nil => intro f' hf'; simp [VM.replaceNearestBlock] at hf'
  | cons f rest ih =>
    intro f' hf' blk' hb'
    unfold VM.replaceNearestBlock at hf'
    rcases hf : f.block? with _ | b
    · rw [hf] at hf'
      rcases List.mem_cons.1 hf' with rfl | hmem
      · rw [hf] at hb'; cases hb'
      · rcases ih f' hmem blk' hb' with hl | ⟨f'', hf'', hb''⟩
        · exact Or.inl hl
        · exact Or.inr ⟨f'', List.mem_cons_of_mem _ hf'', hb''⟩
    · rw [hf] at hf'
      rcases List.mem_cons.1 hf' with rfl | hmem
      · simp only at hb'
        simp only [Option.some.injEq] at hb'
        exact Or.inl hb'.symm
      · exact Or.inr ⟨f', List.mem_cons_of_mem _ hmem, hb'⟩

theorem forwardStep_frames {p : VM.Provider} {st : List VM.Frame} {created : Bool}
    {c : VM.PathComp} {st' : List VM.Frame} {created' : Bool}
    (h : VM.forwardStep p st created c = some (st', created'))
    (hM : VM.MapConsistent p) (hC : VM.DiskClosed p) (hF : FramesOnDisk p st) :
    FramesOnDisk p st' := by
  cases c with
  | prefixComp => cases h; exact hF
  | rootDir => cases h; exact hF
  | curDir => cases h; exact hF
  | parentDir => cases h
  | normal name =>
    cases st with
    | nil => cases h
    | cons top rest =>
      rcases hf : VM.findNearestBlock (top :: rest) with _ | blk
      · rw [show VM.forwardStep p (top :: rest) created (.normal name) = none by
          simp only [VM.forwardStep, hf]] at h
        cases h
      · rcases hg : VM.directory_get_entry_block_id_and_node_index blk top.nodeIndex name
          with _ | og
        · rw [show VM.forwardStep p (top :: rest) created (.normal name) = none by
            simp only [VM.forwardStep, hf, hg]] at h
          cases h
        · rcases og with _ | ⟨obid, nIdx⟩
          · -- entry missing: create a local node in the nearest block
            rcases hc : VM.directory_create_local_node blk top.nodeIndex name
                VM.NodeKind.directory with _ | pr
            · rw [show VM.forwardStep p (top :: rest) created (.normal name) = none by
                simp only [VM.forwardStep, hf, hg, hc]] at h
              cases h
            · obtain ⟨newBlock, eIdx⟩ := pr
              rw [show VM.forwardStep p (top :: rest) created (.normal name) =
                  some (⟨none, eIdx, name⟩ :: VM.replaceNearestBlock newBlock (top :: rest),
                    true) by
                simp only [VM.forwardStep, hf, hg, hc]] at h
              simp only [Option.some.injEq, Prod.mk.injEq] at h
              obtain ⟨hst', _⟩ := h
              subst hst'
              intro f' hf' blk' hb' r hr
              rcases List.mem_cons.1 hf' with rfl | hmem
              · cases hb'
              · obtain ⟨fb, hfb, hfbb⟩ := findNearestBlock_mem hf
                rcases replaceNearestBlock_blocks f' hmem blk' hb' with rfl | ⟨f'', hf'', hb''⟩
                · exact hF fb hfb blk hfbb r (blockRefs_create_local hc r hr)
                · exact hF f'' hf'' blk' hb'' r hr
          · rcases obid with _ | bid
            · -- local entry: push an inline frame
              rw [show VM.forwardStep p (top :: rest) created (.normal name) =
                  some (⟨none, nIdx, name⟩ :: top :: rest, created) by
                simp only [VM.forwardStep, hf, hg]] at h
              simp only [Option.some.injEq, Prod.mk.injEq] at h
              obtain ⟨hst', _⟩ := h
              subst hst'
              intro f' hf' blk' hb' r hr
              rcases List.mem_cons.1 hf' with rfl | hmem
              · cases hb'
              · exact hF f' hmem blk' hb' r hr
            · -- block entry: fetch the block and push it
              rcases hb : p.get_block bid with _ | fetched
              · rw [show VM.forwardStep p (top :: rest) created (.normal name) = none by
                  simp only [VM.forwardStep, hf, hg, hb]] at h
                cases h
              · rw [show VM.forwardStep p (top :: rest) created (.normal name) =
                    some (⟨some fetched, nIdx, name⟩ :: top :: rest, created) by
                  simp only [VM.forwardStep, hf, hg, hb]] at h
                simp only [Option.some.injEq, Prod.mk.injEq] at h
                obtain ⟨hst', _⟩ := h
                subst hst'
                intro f' hf' blk' hb' r hr
                rcases List.mem_cons.1 hf' with rfl | hmem
                · simp only [Option.some.injEq] at hb'
                  subst hb'
                  have hdisk := hM (bid, fetched) (lookup_mem hb)
                  exact hC (bid, VM.encrypt fetched) (lookup_mem hdisk) r hr
                · exact hF f' hmem blk' hb' r hr

theorem forwardPass_frames {p : VM.Provider} :
    ∀ {cs : List VM.PathComp} {st : List VM.Frame} {created : Bool} {st' : List VM.Frame}
      {created' : Bool},
      VM.forwardPass p cs st created = some (st', created') →
      VM.MapConsistent p → VM.DiskClosed p → FramesOnDisk p st → FramesOnDisk p st' := by
  intro cs
  induction cs with
  | nil =>
    intro st created st' created' h _ _ hF
    cases h
    exact hF
  | cons c cs ih =>
    intro st created st' created' h hM hC hF
    unfold VM.forwardPass at h
    rcases hs : VM.forwardStep p st created c with _ | pr
    · rw [hs] at h; cases h
    · rw [hs] at h
      obtain ⟨st1, created1⟩ := pr
      exact ih h hM hC (forwardStep_frames hs hM hC hF)

/-! ### The backtracking-pass invariant -/

theorem insert_inv {p : VM.Provider} {b : VM.BlockVal}
    (hM : VM.MapConsistent p) (hC : VM.DiskClosed p)
    (hrefs : ∀ r ∈ VM.blockRefs b, VM.diskHas p r) {f : VM.Frame} :
    BackInv p (p.add_block (VM.encryptedBlockId (VM.encrypt b)) (VM.encrypt b) b).2
      ⟨some (p.add_block (VM.encryptedBlockId (VM.encrypt b)) (VM.encrypt b) b).1,
        some (VM.encryptedBlockId (VM.encrypt b)), some (f.nodeIndex % 2 ^ 16), some f.name⟩
      [VM.Event.addBlock (VM.encryptedBlockId (VM.encrypt b))] := by
  refine ⟨add_block_MapConsistent hM, add_block_DiskClosed hC hrefs,
    fun k hk => add_block_disk_mono hk, ?_, ?_⟩
  · intro bid hbid
    simp only [Option.some.injEq] at hbid
    subst hbid
    exact add_block_diskHas_self hM
  · intro e he
    simp only [List.mem_singleton] at he
    exact ⟨_, he⟩

theorem backStep_inv {p : VM.Provider} {pend : VM.Pending} {f : VM.Frame} {p' : VM.Provider}
    {pend' : VM.Pending} {evs : List VM.Event}
    (h : VM.backStep p pend f = some (p', pend', evs))
    (hM : VM.MapConsistent p) (hC : VM.DiskClosed p)
    (hFr : ∀ blk, f.block? = some blk → ∀ r ∈ VM.blockRefs blk, VM.diskHas p r)
    (hP : ∀ bid, pend.entryBlockId = some bid → VM.diskHas p bid) :
    BackInv p p' pend' evs := by
  rcases hfb : f.block? with _ | blk
  · rw [show VM.backStep p pend f =
        some (p, ⟨none, none, some (f.nodeIndex % 2 ^ 16), some f.name⟩, []) by
      simp only [VM.backStep, hfb]] at h
    simp only [Option.some.injEq, Prod.mk.injEq] at h
    obtain ⟨hp, hpend, hevs⟩ := h
    subst hp hpend hevs
    refine ⟨hM, hC, fun k hk => hk, ?_, ?_⟩
    · intro bid hbid; simp at hbid
    · intro e he; simp at he
  · have hrefs_blk : ∀ r ∈ VM.blockRefs blk, VM.diskHas p r := hFr blk hfb
    rcases hni : pend.entryNodeIndex with _ | ni
    · rw [show VM.backStep p pend f =
          some ((p.add_block (VM.encryptedBlockId (VM.encrypt blk)) (VM.encrypt blk) blk).2,
            ⟨some (p.add_block (VM.encryptedBlockId (VM.encrypt blk)) (VM.encrypt blk) blk).1,
              some (VM.encryptedBlockId (VM.encrypt blk)), some (f.nodeIndex % 2 ^ 16),
              some f.name⟩,
            [VM.Event.addBlock (VM.encryptedBlockId (VM.encrypt blk))]) by
        simp only [VM.backStep, hfb, hni]] at h
      simp only [Option.some.injEq, Prod.mk.injEq] at h
      obtain ⟨hp, hpend, hevs⟩ := h
      subst hp hpend hevs
      exact insert_inv hM hC hrefs_blk
    · rcases hnm : pend.entryName with _ | nm
      · rw [show VM.backStep p pend f =
            some ((p.add_block (VM.encryptedBlockId (VM.encrypt blk)) (VM.encrypt blk) blk).2,
              ⟨some (p.add_block (VM.encryptedBlockId (VM.encrypt blk)) (VM.encrypt blk) blk).1,
                some (VM.encryptedBlockId (VM.encrypt blk)), some (f.nodeIndex % 2 ^ 16),
                some f.name⟩,
              [VM.Event.addBlock (VM.encryptedBlockId (VM.encrypt blk))]) by
          simp only [VM.backStep, hfb, hni, hnm]] at h
        simp only [Option.some.injEq, Prod.mk.injEq] at h
        obtain ⟨hp, hpend, hevs⟩ := h
        subst hp hpend hevs
        exact insert_inv hM hC hrefs_blk
      · rcases hs : VM.directory_set_entry_block_id_and_node_index blk f.nodeIndex nm
            pend.entryBlockId ni with _ | os
        · rw [show VM.backStep p pend f = none by
            simp only [VM.backStep, hfb, hni, hnm, hs]] at h
          cases h
        · cases os with
          | none =>
            rw [show VM.backStep p pend f =
                some ((p.add_block (VM.encryptedBlockId (VM.encrypt blk))
                    (VM.encrypt blk) blk).2,
                  ⟨some (p.add_block (VM.encryptedBlockId (VM.encrypt blk))
                      (VM.encrypt blk) blk).1,
                    some (VM.encryptedBlockId (VM.encrypt blk)), some (f.nodeIndex % 2 ^ 16),
                    some f.name⟩,
                  [VM.Event.addBlock (VM.encryptedBlockId (VM.encrypt blk))]) by
              simp only [VM.backStep, hfb, hni, hnm, hs]] at h
            simp only [Option.some.injEq, Prod.mk.injEq] at h
            obtain ⟨hp, hpend, hevs⟩ := h
            subst hp hpend hevs
            exact insert_inv hM hC hrefs_blk
          | some newBlock =>
            have hrefs_new : ∀ r ∈ VM.blockRefs newBlock, VM.diskHas p r := by
              intro r hr
              rcases blockRefs_set_entry hs r hr with hin | hreq
              · exact hrefs_blk r hin
              · rcases hbid : pend.entryBlockId with _ | x
                · rw [hbid] at hreq; simp [VM.requestedId, VM.idRefs] at hreq
                · rw [hbid] at hreq
                  simp only [VM.requestedId, VM.idRefs, List.mem_singleton] at hreq
                  subst hreq
                  exact hP r hbid
            rw [show VM.backStep p pend f =
                some ((p.add_block (VM.encryptedBlockId (VM.encrypt newBlock))
                    (VM.encrypt newBlock) newBlock).2,
                  ⟨some (p.add_block (VM.encryptedBlockId (VM.encrypt newBlock))
                      (VM.encrypt newBlock) newBlock).1,
                    some (VM.encryptedBlockId (VM.encrypt newBlock)),
                    some (f.nodeIndex % 2 ^ 16), some f.name⟩,
                  [VM.Event.addBlock (VM.encryptedBlockId (VM.encrypt newBlock))]) by
              simp only [VM.backStep, hfb, hni, hnm, hs]] at h
            simp only [Option.some.injEq, Prod.mk.injEq] at h
            obtain ⟨hp, hpend, hevs⟩ := h
            subst hp hpend hevs
            exact insert_inv hM hC hrefs_new

theorem backtrack_inv :
    ∀ {frames : List VM.Frame} {p : VM.Provider} {pend : VM.Pending} {p' : VM.Provider}
      {pend' : VM.Pending} {evs : List VM.Event},
      VM.backtrack p pend frames = some (p', pend', evs) →
      VM.MapConsistent p → VM.DiskClosed p → FramesOnDisk p frames →
      (∀ bid, pend.entryBlockId = some bid → VM.diskHas p bid) →
      BackInv p p' pend' evs := by
  intro frames
  induction frames with
  | nil =>
    intro p pend p' pend' evs h hM hC _ hP
    simp only [VM.backtrack, Option.some.injEq, Prod.mk.injEq] at h
    obtain ⟨hp, hpend, hevs⟩ := h
    subst hp hpend hevs
    refine ⟨hM, hC, fun k hk => hk, hP, ?_⟩
    intro e he; simp at he
  | cons f rest ih =>
    intro p pend p' pend' evs h hM hC hF hP
    unfold VM.backtrack at h
    rcases h1 : VM.backStep p pend f with _ | pr1
    · simp only [h1] at h
      exact absurd h (by simp)
    · obtain ⟨p1, pend1, evs1⟩ := pr1
      simp only [h1] at h
      rcases h2 : VM.backtrack p1 pend1 rest with _ | pr2
      · simp only [h2] at h
        exact absurd h (by simp)
      · obtain ⟨p2, pend2, evs2⟩ := pr2
        simp only [h2, Option.some.injEq, Prod.mk.injEq] at h
        obtain ⟨hp, hpend, hevs⟩ := h
        subst hp hpend hevs
        obtain ⟨hM1, hC1, hmono1, hP1, hadd1⟩ :=
          backStep_inv h1 hM hC (hF f (List.mem_cons_self _ _)) hP
        obtain ⟨hM2, hC2, hmono2, hP2, hadd2⟩ := ih h2 hM1 hC1
          (fun f' hf' blk hblk r hr =>
            hmono1 r (hF f' (List.mem_cons_of_mem _ hf') blk hblk r hr))
          hP1
        refine ⟨hM2, hC2, fun k hk => hmono2 k (hmono1 k hk), hP2, ?_⟩
        intro e he
        rcases List.mem_append.1 he with he1 | he2
        · exact hadd1 e he1
        · exact hadd2 e he2

/-! ### Crash consistency of `create_directory` -/

theorem reach_diskHas {p : VM.Provider} (hC : VM.DiskClosed p) {a : Nat}
    (ha : VM.diskHas p a) : ∀ {r : Nat}, VM.Reach p a r → VM.diskHas p r := by
  intro r h
  induction h with
  | refl => exact ha
  | step _ hl hm _ => exact hC _ (lookup_mem hl) _ hm

theorem exists_map_of_all_addBlock :
    ∀ {evs : List VM.Event}, (∀ e ∈ evs, ∃ i, e = VM.Event.addBlock i) →
      ∃ ids : List Nat, evs = ids.map VM.Event.addBlock := by
  intro evs
  induction evs with
  | nil => exact fun _ => ⟨[], rfl⟩
  | cons e rest ih =>
    intro h
    obtain ⟨i, hi⟩ := h e (List.mem_cons_self _ _)
    obtain ⟨ids, hids⟩ := ih fun x hx => h x (List.mem_cons_of_mem _ hx)
    exact ⟨i :: ids, by rw [hi, hids]; rfl⟩

/-- Claim C5.  Crash consistency of `Vault::create_directory`.  Under the
standing invariants (the in-memory map is a subset of the disk, every block
file on disk references only on-disk ids, and the cached root and vault
blocks reference only on-disk ids), every successful execution either
modifies nothing (empty event trace, provider and state unchanged) or emits
a trace consisting of `add_block` block-file writes followed by the single
vault-id pointer-file rewrite as its **last** event — and at that moment
every block id reachable from the final vault id `vid` through the on-disk
block files has its block file present on disk. -/
theorem create_directory_crash_consistency :
    ∀ (p : VM.Provider) (vs : VM.VaultState) (path : List VM.PathComp) (p' : VM.Provider)
      (vs' : VM.VaultState) (evs : List VM.Event),
      VM.create_directory p vs path = some (p', vs', evs) →
      VM.MapConsistent p → VM.DiskClosed p →
      (∀ r ∈ VM.blockRefs vs.root, VM.diskHas p r) →
      (∀ r ∈ VM.blockRefs vs.vault, VM.diskHas p r) →
      (evs = [] ∧ p' = p ∧ vs' = vs) ∨
      (∃ (adds : List Nat) (vid : Nat),
        evs = adds.map VM.Event.addBlock ++ [VM.Event.savePointer vid] ∧
        VM.diskHas p' vid ∧ ∀ r, VM.Reach p' vid r → VM.diskHas p' r) := by
  intro p vs path p' vs' evs h hM hC hroot hvault
  unfold VM.create_directory at h
  rcases hfp : VM.forwardPass p path [⟨some vs.root, 0, ""⟩] false with _ | pr
  · simp only [hfp] at h
    exact absurd h (by simp)
  · obtain ⟨st, created⟩ := pr
    simp only [hfp] at h
    cases created with
    | false =>
      simp only [Bool.false_eq_true, if_false, Option.some.injEq, Prod.mk.injEq] at h
      obtain ⟨hp, hvs, hevs⟩ := h
      exact Or.inl ⟨hevs.symm, hp.symm, hvs.symm⟩
    | true =>
      simp only [if_pos rfl] at h
      rcases hbt : VM.backtrack p ⟨none, none, none, none⟩ st with _ | pr1
      · simp only [hbt] at h
        exact absurd h (by simp)
      · obtain ⟨p1, pend, evs1⟩ := pr1
        simp only [hbt] at h
        rcases hbid : pend.entryBlockId with _ | newRootId
        · simp only [hbid] at h
          exact absurd h (by simp)
        · rcases hblk : pend.entryBlock with _ | newRoot
          · simp only [hbid, hblk] at h
            exact absurd h (by simp)
          · simp only [hbid, hblk] at h
            rcases hur : VM.update_root_id vs.vault newRootId with _ | vaultBlock
            · simp only [hur] at h
              exact absurd h (by simp)
            · simp only [hur, Option.some.injEq, Prod.mk.injEq] at h
              obtain ⟨hp, _, hevs⟩ := h
              -- the invariants after the two passes
              have hFbase : FramesOnDisk p [⟨some vs.root, 0, ""⟩] := by
                intro f hf blk hblk r hr
                rcases List.mem_singleton.1 hf with rfl
                simp only [Option.some.injEq] at hblk
                subst hblk
                exact hroot r hr
              have hFst : FramesOnDisk p st := forwardPass_frames hfp hM hC hFbase
              obtain ⟨hM1, hC1, hmono1, hP1, hadds⟩ :=
                backtrack_inv hbt hM hC hFst (fun bid hb => by simp at hb)
              have hvid_refs : ∀ r ∈ VM.blockRefs vaultBlock, VM.diskHas p1 r := by
                intro r hr
                rcases blockRefs_update_root hur r hr with rfl | hin
                · exact hP1 r hbid
                · exact hmono1 r (hvault r hin)
              have hM2 := @add_block_MapConsistent p1
                (VM.encryptedBlockId (VM.encrypt vaultBlock)) vaultBlock hM1
              have hC2 := @add_block_DiskClosed p1
                (VM.encryptedBlockId (VM.encrypt vaultBlock))
                (VM.encrypt vaultBlock) vaultBlock hC1 hvid_refs
              have hvid : VM.diskHas
                  (p1.add_block (VM.encryptedBlockId (VM.encrypt vaultBlock))
                    (VM.encrypt vaultBlock) vaultBlock).2
                  (VM.encryptedBlockId (VM.encrypt vaultBlock)) :=
                add_block_diskHas_self hM1
              obtain ⟨ids, hids⟩ := exists_map_of_all_addBlock hadds
              refine Or.inr ⟨ids ++ [VM.encryptedBlockId (VM.encrypt vaultBlock)],
                VM.encryptedBlockId (VM.encrypt vaultBlock), ?_, hvid,
                fun r hr => reach_diskHas hC2 hvid hr⟩
              rw [hids, List.map_append]
              simp

/-- Witness for `create_directory_crash_consistency`: creating `/a` in the
concrete post-initialize scenario. -/
theorem create_directory_crash_consistency_witness :
    (c5out.2.2 = [] ∧ c5out.1 = c5p ∧ c5out.2.1 = c5vs) ∨
    (∃ (adds : List Nat) (vid : Nat),
      c5out.2.2 = adds.map VM.Event.addBlock ++ [VM.Event.savePointer vid] ∧
      VM.diskHas c5out.1 vid ∧ ∀ r, VM.Reach c5out.1 vid r → VM.diskHas c5out.1 r) :=
  create_directory_crash_consistency c5p c5vs c5path c5out.1 c5out.2.1 c5out.2.2
    (by decide) (by decide) (by decide) (by decide) (by decide)

end Exomem
